import Mathlib

/-!
# navm.c: translation of CS11 bytecode to x86 machine code

A shallow embedding of `convert_opcodes` and `perform_conversion` of `navm.c`,
with a model of the processor for the instructions they emit and the reference
interpreter of the bytecode.

Memory is modelled by total functions: `fake_ptr : Nat → byte` is the view of
memory through the pointer `fake_ptr` (index `k` is `fake_ptr[k]`, also past
`fake_len`, where the C code reads when the last instruction is cut short),
`real_ptr : Nat → byte` is the view through the destination pointer.  The table
`addr_table` is the `calloc`ed array of `fake_len + 1` ints; a read outside it
(which the C code performs for a jump target outside `0..fake_len`) yields the
ambient word `heap k`, about which nothing is assumed.

The C `int`s `i`, `j`, `real_pos` never become negative and stay below `2^31`
for every program the loader accepts (`fake_len ≤ MAX_INSTS`, see
`counters_fit_int`), so they are natural numbers here.  The `short` variables
`jmp_addr` and `fake_addr` do wrap and carry the explicit conversion
`to_short`.
-/

namespace Navm

/-- The C type `byte` (`typedef unsigned char byte`). -/
abbrev byte := Fin 256

def MAX_INSTS : Nat := 65536
def NREGS : Nat := 16
def MAX_SCALE : Nat := 12

def NOP : Nat := 0x00
def PUSH : Nat := 0x01
def POP : Nat := 0x02
def LOAD : Nat := 0x03
def STORE : Nat := 0x04
def JMP : Nat := 0x05
def JZ : Nat := 0x06
def JNZ : Nat := 0x07
def ADD : Nat := 0x08
def SUB : Nat := 0x09
def MUL : Nat := 0x0a
def DIV : Nat := 0x0b
def PRINT : Nat := 0x0c
def STOP : Nat := 0x0d

/-- Conversion of an `int` to `unsigned char` (reduction modulo 256). -/
def to_byte (x : Int) : byte := ⟨(x % 256).toNat, by omega⟩

/-- Conversion of an `int` to `short` as gcc performs it (reduction modulo
`2^16` into `-32768..32767`). -/
def to_short (x : Int) : Int := (x + 32768) % 65536 - 32768

/-- The four bytes of the object representation of a 32-bit `int` on x86
(little endian, two's complement), as `memcpy(dst, &x, 4)` copies them. -/
def int_bytes (x : Int) : List byte :=
  let u : Int := x % 4294967296
  [to_byte u, to_byte (u / 256), to_byte (u / 65536), to_byte (u / 16777216)]

/-- The effect of `memcpy(dst + off, src, src.length)` on the view `dst`. -/
def memcpy (dst : Nat → byte) (off : Nat) (src : List byte) : Nat → byte :=
  fun k => if off ≤ k ∧ k < off + src.length then src.getD (k - off) 0 else dst k

/-- The struct `node`: one pending jump. `fake_addr` is a `short`. -/
structure node where
  real_pos : Nat
  fake_addr : Int
deriving DecidableEq, Repr

/-- The function `prepend_to_list(i, j, n)`; the assignment
`m->fake_addr = j` converts the `int` argument to `short`. -/
def prepend_to_list (i : Nat) (j : Int) (n : List node) : List node :=
  { real_pos := i, fake_addr := to_short j } :: n

/-- What the translation takes from its surroundings: the value of the
global pointer `format_str`, the address of `printf`, the address `real_addr`
of the first byte of the destination buffer (the value of the pointer
`real_ptr` for `convert_opcodes`, of the pointer `real` that `mmap` returns for
`perform_conversion`), and the words of memory around `addr_table`. -/
structure Env where
  format_str : Nat
  printf_addr : Nat
  real_addr : Nat
  heap : Int → Int

/-- The fatal exit of the `default` case: the two `fprintf` calls print the
offending byte (and nothing else that varies), then `exit(1)`. -/
inductive Failure where
  | invalid_instruction (b : byte)
deriving DecidableEq, Repr

/-- The text the `default` case writes to `stderr`: the format
`"execute_program: invalid instruction: %x\n"` applied to the byte, then the
fixed line `"\taborting program!\n"`. -/
def Failure.stderr : Failure → String
  | .invalid_instruction b =>
    "execute_program: invalid instruction: " ++ String.mk (Nat.toDigits 16 b.val) ++ "\n"
      ++ "\taborting program!\n"

/-- The local variables of `convert_opcodes` during the first loop. -/
structure State where
  i : Nat
  j : Nat
  real_ptr : Nat → byte
  addr_table : List Int
  jump_locations : List node

/-- The expression `fake_ptr[i + 1] + (fake_ptr[i + 2] << 8)` (an `int`). -/
def jmp_operand (fake_ptr : Nat → byte) (i : Nat) : Int :=
  ((fake_ptr (i + 1)).val : Int) + ((fake_ptr (i + 2)).val : Int) * 256

/-- One iteration of the first `while` loop of `convert_opcodes`
(the body, entered with `i < fake_len`). -/
def step (env : Env) (fake_ptr : Nat → byte) (fake_len : Nat) (s : State) :
    Except Failure State :=
  let i := s.i
  let j := s.j
  let real_ptr := s.real_ptr
  let addr_table := s.addr_table.set i (j : Int)
  let jump_locations := s.jump_locations
  match (fake_ptr i).val with
  | 0x00 => -- NOP
    .ok { i := i + 1, j := j + 1, real_ptr := memcpy real_ptr j [0x90],
          addr_table, jump_locations }
  | 0x01 => -- PUSH
    .ok { i := i + 5, j := j + 5,
          real_ptr := memcpy (memcpy real_ptr j [0x68]) (j + 1)
            [fake_ptr (i + 1), fake_ptr (i + 2), fake_ptr (i + 3), fake_ptr (i + 4)],
          addr_table, jump_locations }
  | 0x02 => -- POP
    .ok { i := i + 1, j := j + 1, real_ptr := memcpy real_ptr j [0x5A],
          addr_table, jump_locations }
  | 0x03 => -- LOAD
    .ok { i := i + 2, j := j + 3,
          real_ptr := memcpy (memcpy real_ptr j [0xFF, 0x75]) (j + 2)
            [to_byte (-4 * (((fake_ptr (i + 1)).val : Int) + 1))],
          addr_table, jump_locations }
  | 0x04 => -- STORE
    .ok { i := i + 2, j := j + 3,
          real_ptr := memcpy (memcpy real_ptr j [0x8F, 0x45]) (j + 2)
            [to_byte (-4 * (((fake_ptr (i + 1)).val : Int) + 1))],
          addr_table, jump_locations }
  | 0x05 => -- JMP
    let jmp_addr := to_short (jmp_operand fake_ptr i)
    .ok { i := i + 3, j := j + 5,
          real_ptr := memcpy real_ptr j [0xE9, 0xCA, 0xBB, 0xA6, 0xE5],
          addr_table,
          jump_locations := prepend_to_list (j + 1) jmp_addr jump_locations }
  | 0x06 => -- JZ
    let jmp_addr := to_short (jmp_operand fake_ptr i)
    .ok { i := i + 3, j := j + 9,
          real_ptr := memcpy real_ptr j [0x59, 0x85, 0xC9, 0x0F, 0x84, 0xCA, 0xBB, 0xA6, 0xE5],
          addr_table,
          jump_locations := prepend_to_list (j + 5) jmp_addr jump_locations }
  | 0x07 => -- JNZ
    let jmp_addr := to_short (jmp_operand fake_ptr i)
    .ok { i := i + 3, j := j + 9,
          real_ptr := memcpy real_ptr j [0x59, 0x85, 0xC9, 0x0F, 0x85, 0xCA, 0xBB, 0xA6, 0xE5],
          addr_table,
          jump_locations := prepend_to_list (j + 5) jmp_addr jump_locations }
  | 0x08 => -- ADD
    .ok { i := i + 1, j := j + 5,
          real_ptr := memcpy real_ptr j [0x5A, 0x59, 0x01, 0xD1, 0x51],
          addr_table, jump_locations }
  | 0x09 => -- SUB
    .ok { i := i + 1, j := j + 5,
          real_ptr := memcpy real_ptr j [0x5A, 0x59, 0x29, 0xD1, 0x51],
          addr_table, jump_locations }
  | 0x0a => -- MUL
    .ok { i := i + 1, j := j + 6,
          real_ptr := memcpy real_ptr j [0x5A, 0x59, 0x0F, 0xAF, 0xCA, 0x51],
          addr_table, jump_locations }
  | 0x0b => -- DIV
    .ok { i := i + 1, j := j + 7,
          real_ptr := memcpy real_ptr j [0x59, 0x58, 0x31, 0xD2, 0xF7, 0xF9, 0x50],
          addr_table, jump_locations }
  | 0x0c => -- PRINT
    let printf_offset : Int := (env.printf_addr : Int) - ((env.real_addr : Int) + j + 10)
    .ok { i := i + 1, j := j + 12,
          real_ptr :=
            memcpy (memcpy (memcpy (memcpy (memcpy real_ptr j [0x68])
              (j + 1) (int_bytes env.format_str))
              (j + 5) [0xE8])
              (j + 6) (int_bytes printf_offset))
              (j + 10) [0x5A, 0x5A],
          addr_table, jump_locations }
  | 0x0d => -- STOP
    .ok { i := i + 1, j := j + 5,
          real_ptr := memcpy real_ptr j [0xE9, 0xCA, 0xBB, 0xA6, 0xE5],
          addr_table,
          jump_locations := prepend_to_list (j + 1) fake_len jump_locations }
  | _ => .error (.invalid_instruction (fake_ptr i))

/-- The first `while` loop of `convert_opcodes`. Every iteration advances `i`
by at least one, so `fake_len - i` iterations always reach the exit test
`i < fake_len` (see `pass_one_fuel`); `convert_opcodes` supplies `fake_len`. -/
def pass_one (env : Env) (fake_ptr : Nat → byte) (fake_len : Nat) :
    Nat → State → Except Failure State
  | 0, s => .ok s
  | fuel + 1, s =>
    if s.i < fake_len then
      match step env fake_ptr fake_len s with
      | .ok s' => pass_one env fake_ptr fake_len fuel s'
      | .error e => .error e
    else .ok s

/-- The read `addr_table[k]` of the second loop: inside the array the stored
entry, outside it whatever the surrounding memory holds. -/
def table_read (heap : Int → Int) (addr_table : List Int) (k : Int) : Int :=
  if 0 ≤ k ∧ k < addr_table.length then addr_table.getD k.toNat 0 else heap k

/-- The second `while` loop of `convert_opcodes` ("Fill in the jumps"). -/
def fill_jumps (heap : Int → Int) (addr_table : List Int) :
    List node → (Nat → byte) → (Nat → byte)
  | [], real_ptr => real_ptr
  | temp :: next, real_ptr =>
    let addr_offset : Int := table_read heap addr_table temp.fake_addr - ((temp.real_pos : Int) + 4)
    fill_jumps heap addr_table next (memcpy real_ptr temp.real_pos (int_bytes addr_offset))

/-- What `convert_opcodes` leaves behind: the returned `j`, the destination
buffer, and (for stating properties) the table and the list of pending jumps as
they stood between the two loops. -/
structure Converted where
  len : Nat
  real_ptr : Nat → byte
  addr_table : List Int
  jump_locations : List node

/-- The function `convert_opcodes(fake_ptr, real_ptr, fake_len)`. -/
def convert_opcodes (env : Env) (fake_ptr : Nat → byte) (real_ptr : Nat → byte)
    (fake_len : Nat) : Except Failure Converted :=
  let addr_table : List Int := List.replicate (fake_len + 1) 0
  match pass_one env fake_ptr fake_len fake_len
      { i := 0, j := 0, real_ptr, addr_table, jump_locations := [] } with
  | .error e => .error e
  | .ok s =>
    let addr_table := s.addr_table.set fake_len (s.j : Int)
    .ok { len := s.j,
          real_ptr := fill_jumps env.heap addr_table s.jump_locations s.real_ptr,
          addr_table,
          jump_locations := s.jump_locations }

/-- A concrete program: the bytes of `l`, with zero bytes behind them. -/
def program (l : List Nat) : Nat → byte := fun k => Fin.ofNat (l.getD k 0)

/-- A concrete environment for `convert_opcodes`: addresses as a 32-bit
process might have them and zero words around the table. -/
def env0 : Env :=
  { format_str := 0x0804a010, printf_addr := 0xf7e00000, real_addr := 0xf7000023,
    heap := fun _ => 0 }

/-- A destination buffer of zero bytes (fresh anonymous `mmap` memory). -/
def zero_mem : Nat → byte := fun _ => 0

/-- The program `PUSH 2; PUSH 3; ADD; PRINT; STOP` (13 bytes). -/
def sample_add : List Nat := [1, 2, 0, 0, 0, 1, 3, 0, 0, 0, 8, 12, 13]

/-- The program `PUSH 1; STORE 0; PUSH 0; JZ 21; PUSH 9; PRINT; STOP`
(22 bytes; offset 21 is the `STOP`). -/
def sample_jz : List Nat :=
  [1, 1, 0, 0, 0, 4, 0, 1, 0, 0, 0, 0, 6, 21, 0, 1, 9, 0, 0, 0, 12, 13]

end Navm

namespace Navm

/-- Bytecode length of the instruction with opcode `op`: the amount its case
adds to `i`; `none` for a byte the `switch` sends to `default`. -/
def blen : Nat → Option Nat
  | 0x00 => some 1
  | 0x01 => some 5
  | 0x02 => some 1
  | 0x03 => some 2
  | 0x04 => some 2
  | 0x05 => some 3
  | 0x06 => some 3
  | 0x07 => some 3
  | 0x08 => some 1
  | 0x09 => some 1
  | 0x0a => some 1
  | 0x0b => some 1
  | 0x0c => some 1
  | 0x0d => some 1
  | _ => none

/-- Native length of the instruction with opcode `op`: the amount its case
adds to `j`. -/
def nlen : Nat → Nat
  | 0x00 => 1
  | 0x01 => 5
  | 0x02 => 1
  | 0x03 => 3
  | 0x04 => 3
  | 0x05 => 5
  | 0x06 => 9
  | 0x07 => 9
  | 0x08 => 5
  | 0x09 => 5
  | 0x0a => 6
  | 0x0b => 7
  | 0x0c => 12
  | 0x0d => 5
  | _ => 0

/-- The pending jumps the instruction at bytecode offset `i`, translated at
native offset `j`, puts on the list. -/
def new_jumps (fake_ptr : Nat → byte) (fake_len : Nat) (i j : Nat) : List node :=
  match (fake_ptr i).val with
  | 0x05 => [{ real_pos := j + 1, fake_addr := to_short (jmp_operand fake_ptr i) }]
  | 0x06 => [{ real_pos := j + 5, fake_addr := to_short (jmp_operand fake_ptr i) }]
  | 0x07 => [{ real_pos := j + 5, fake_addr := to_short (jmp_operand fake_ptr i) }]
  | 0x0d => [{ real_pos := j + 1, fake_addr := to_short fake_len }]
  | _ => []

/-- Instruction starts as the specification describes them: decode from
offset `i`, advancing by the bytecode length of each opcode, as long as the
offset is inside the program and the opcode is known. An offset holding an
unknown opcode is still listed (it is where decoding stops). -/
def starts_from (fake_ptr : Nat → byte) (fake_len : Nat) : Nat → Nat → List Nat
  | 0, _ => []
  | fuel + 1, i =>
    if i < fake_len then
      i :: (match blen (fake_ptr i).val with
            | some b => starts_from fake_ptr fake_len fuel (i + b)
            | none => [])
    else []

/-- The instruction starts met when decoding from offset `i` to the end of the
program (at most `fake_len - i` of them, as each instruction has a positive
length). -/
def starts_at (fake_ptr : Nat → byte) (fake_len : Nat) (i : Nat) : List Nat :=
  starts_from fake_ptr fake_len (fake_len - i) i

/-- The instruction starts of the program `fake_ptr[0..fake_len)`, decoding
from offset 0. -/
def instr_starts (fake_ptr : Nat → byte) (fake_len : Nat) : List Nat :=
  starts_at fake_ptr fake_len 0

/-- The first loop as a relation: `Run s t` when the loop entered in state `s`
leaves, without a fatal exit, in state `t`. -/
inductive Run (env : Env) (fake_ptr : Nat → byte) (fake_len : Nat) : State → State → Prop
  | done (s : State) : fake_len ≤ s.i → Run env fake_ptr fake_len s s
  | next (s s' t : State) : s.i < fake_len → step env fake_ptr fake_len s = .ok s' →
      Run env fake_ptr fake_len s' t → Run env fake_ptr fake_len s t

end Navm

namespace Navm

/-- The write cursor of `perform_conversion`: the region `real` and the
distance of `real_ptr` from its start. -/
structure Cursor where
  mem : Nat → byte
  pos : Nat

/-- The statement `*(real_ptr++) = b`. -/
def put (c : Cursor) (b : byte) : Cursor :=
  { mem := memcpy c.mem c.pos [b], pos := c.pos + 1 }

/-- The function `perform_conversion(fake, fake_len)`. The field `real_addr`
of `env` is here the address `mmap` returns; the anonymous mapping is zero
filled. The result is the region with, for stating properties, the final
position of `real_ptr` in it. -/
def perform_conversion (env : Env) (fake : Nat → byte) (fake_len : Nat) :
    Except Failure Cursor :=
  let c : Cursor := { mem := fun _ => 0, pos := 0 }
  let c := put c 0x55
  let c := put c 0x89
  let c := put c 0xE5
  let c := Nat.repeat (fun c => put (put c 0x6A) 0x00) NREGS c
  match convert_opcodes { env with real_addr := env.real_addr + c.pos } fake
      (fun k => c.mem (c.pos + k)) fake_len with
  | .error e => .error e
  | .ok r =>
    let c : Cursor :=
      { mem := fun k => if k < c.pos then c.mem k else r.real_ptr (k - c.pos),
        pos := c.pos + r.len }
    let c := Nat.repeat (fun c => put c 0x58) NREGS c
    let c := put c 0xC9
    let c := put c 0xC3
    .ok c

/-- The environment `env0` seen from `perform_conversion`: the region starts
35 bytes before the translated body. -/
def env_mmap : Env := { env0 with real_addr := 0xf7000000 }

/-! ## The processor

`main` calls the region as a function. What the bytes then do is fixed by the
IA-32 instruction set; the model below covers the encodings that
`perform_conversion` and `convert_opcodes` emit (the conversion table in the
comment of `convert_opcodes` names them), over 32-bit registers held as
naturals below `2^32` and a stack of aligned double words. -/

/-- Reduction of an integer to a 32-bit register value. -/
def wrap32 (x : Int) : Nat := (x % 4294967296).toNat

/-- The signed reading of a 32-bit register value. -/
def sint32 (u : Nat) : Int := if u < 2147483648 then (u : Int) else (u : Int) - 4294967296

/-- The signed reading of a byte (an 8-bit displacement or immediate). -/
def sint8 (b : byte) : Int := if b.val < 128 then (b.val : Int) else (b.val : Int) - 256

/-- The double word stored little-endian at offset `o` of `code`. -/
def imm32 (code : Nat → byte) (o : Nat) : Nat :=
  (code o).val + 256 * (code (o + 1)).val + 65536 * (code (o + 2)).val
    + 16777216 * (code (o + 3)).val

/-- The registers the generated code uses, the zero flag, the stack memory
(double words by byte address) and the integers `printf` has written. `eip`
is kept as an offset from the start of the region. -/
structure Cpu where
  eax : Nat
  ecx : Nat
  edx : Nat
  ebp : Nat
  esp : Nat
  eip : Nat
  zf : Bool
  stack : Nat → Nat
  out : List Int

/-- How a run ends: the region returned to its caller having printed `out`;
a processor fault (divide error, undefined opcode, wild return); or the step
budget of the model was used up. -/
inductive Outcome where
  | returned (out : List Int)
  | fault (out : List Int)
  | fuel_out (out : List Int)
deriving DecidableEq, Repr

/-- Result of a single instruction. -/
inductive Next (σ : Type) where
  | continue (c : σ)
  | stop (o : Outcome)

/-- The instruction `push v`, advancing `eip` by `n`. -/
def Cpu.push (c : Cpu) (v : Nat) (n : Nat) : Cpu :=
  let esp := wrap32 ((c.esp : Int) - 4)
  { c with esp := esp, stack := fun a => if a = esp then v else c.stack a, eip := c.eip + n }

/-- The double word on top of the stack. -/
def Cpu.top (c : Cpu) : Nat := c.stack c.esp

/-- The stack pointer after a pop. -/
def Cpu.popped (c : Cpu) : Nat := wrap32 ((c.esp : Int) + 4)

/-- The target of a relative jump or call whose instruction ends at offset
`next` and whose displacement field is at offset `field`. -/
def rel_target (code : Nat → byte) (next field : Nat) : Nat :=
  wrap32 ((next : Int) + sint32 (imm32 code field))

/-- One instruction of the processor at `eip`. `ret_esp` is the stack pointer
at entry to the region (it points at the return address). -/
def x86_step (env : Env) (code : Nat → byte) (ret_esp : Nat) (c : Cpu) : Next Cpu :=
  let o := c.eip
  let b0 := (code o).val
  let b1 := (code (o + 1)).val
  let b2 := (code (o + 2)).val
  if b0 = 0x90 then .continue { c with eip := o + 1 } -- nop
  else if b0 = 0x55 then .continue (c.push c.ebp 1) -- push %ebp
  else if b0 = 0x50 then .continue (c.push c.eax 1) -- push %eax
  else if b0 = 0x51 then .continue (c.push c.ecx 1) -- push %ecx
  else if b0 = 0x6A then .continue (c.push (wrap32 (sint8 (code (o + 1)))) 2) -- push imm8
  else if b0 = 0x68 then .continue (c.push (imm32 code (o + 1)) 5) -- push imm32
  else if b0 = 0x58 then .continue { c with eax := c.top, esp := c.popped, eip := o + 1 } -- pop %eax
  else if b0 = 0x59 then .continue { c with ecx := c.top, esp := c.popped, eip := o + 1 } -- pop %ecx
  else if b0 = 0x5A then .continue { c with edx := c.top, esp := c.popped, eip := o + 1 } -- pop %edx
  else if b0 = 0x89 ∧ b1 = 0xE5 then .continue { c with ebp := c.esp, eip := o + 2 } -- mov %esp, %ebp
  else if b0 = 0xFF ∧ b1 = 0x75 then -- push d8(%ebp)
    .continue (c.push (c.stack (wrap32 ((c.ebp : Int) + sint8 (code (o + 2))))) 3)
  else if b0 = 0x8F ∧ b1 = 0x45 then -- pop d8(%ebp)
    let a := wrap32 ((c.ebp : Int) + sint8 (code (o + 2)))
    let v := c.top
    .continue { c with esp := c.popped, stack := fun x => if x = a then v else c.stack x,
                       eip := o + 3 }
  else if b0 = 0xE9 then .continue { c with eip := rel_target code (o + 5) (o + 1) } -- jmp
  else if b0 = 0x85 ∧ b1 = 0xC9 then -- test %ecx, %ecx
    .continue { c with zf := decide (c.ecx = 0), eip := o + 2 }
  else if b0 = 0x0F ∧ b1 = 0x84 then -- jz
    .continue { c with eip := if c.zf then rel_target code (o + 6) (o + 2) else o + 6 }
  else if b0 = 0x0F ∧ b1 = 0x85 then -- jnz
    .continue { c with eip := if c.zf then o + 6 else rel_target code (o + 6) (o + 2) }
  else if b0 = 0x01 ∧ b1 = 0xD1 then -- add %edx, %ecx
    let v := wrap32 ((c.ecx : Int) + c.edx)
    .continue { c with ecx := v, zf := decide (v = 0), eip := o + 2 }
  else if b0 = 0x29 ∧ b1 = 0xD1 then -- sub %edx, %ecx
    let v := wrap32 ((c.ecx : Int) - c.edx)
    .continue { c with ecx := v, zf := decide (v = 0), eip := o + 2 }
  else if b0 = 0x0F ∧ b1 = 0xAF ∧ b2 = 0xCA then -- imul %edx, %ecx
    .continue { c with ecx := wrap32 (sint32 c.ecx * sint32 c.edx), eip := o + 3 }
  else if b0 = 0x31 ∧ b1 = 0xD2 then -- xor %edx, %edx
    .continue { c with edx := 0, zf := true, eip := o + 2 }
  else if b0 = 0xF7 ∧ b1 = 0xF9 then -- idiv %ecx: signed division of edx:eax by ecx
    let u : Nat := c.edx * 4294967296 + c.eax
    let dividend : Int := if u < 9223372036854775808 then (u : Int)
                          else (u : Int) - 18446744073709551616
    let divisor : Int := sint32 c.ecx
    let q := Int.tdiv dividend divisor
    if divisor = 0 then .stop (.fault c.out)
    else if q < -2147483648 ∨ 2147483647 < q then .stop (.fault c.out)
    else .continue { c with eax := wrap32 q, edx := wrap32 (Int.tmod dividend divisor),
                            eip := o + 2 }
  else if b0 = 0xE8 then -- call: only `printf` with the format "%d\n" is modelled
    if wrap32 ((env.real_addr : Int) + rel_target code (o + 5) (o + 1)) = env.printf_addr
        ∧ c.top = env.format_str then
      .continue { c with out := c.out ++ [sint32 (c.stack (c.esp + 4))], eip := o + 5 }
    else .stop (.fault c.out)
  else if b0 = 0xC9 then -- leave
    .continue { c with esp := wrap32 ((c.ebp : Int) + 4), ebp := c.stack c.ebp, eip := o + 1 }
  else if b0 = 0xC3 then -- ret
    if c.esp = ret_esp then .stop (.returned c.out) else .stop (.fault c.out)
  else .stop (.fault c.out)

/-- The processor running for at most `fuel` instructions. -/
def x86_run (env : Env) (code : Nat → byte) (ret_esp : Nat) : Nat → Cpu → Outcome
  | 0, c => .fuel_out c.out
  | fuel + 1, c =>
    match x86_step env code ret_esp c with
    | .continue c' => x86_run env code ret_esp fuel c'
    | .stop o => o

/-- The call `((int(*)()) real_code)()` of `main`: the processor enters the
region at offset 0 with the stack pointer at the return address. -/
def call_region (env : Env) (code : Nat → byte) (fuel : Nat) : Outcome :=
  x86_run env code 0xffffd000 fuel
    { eax := 0, ecx := 0, edx := 0, ebp := 0xffffd040, esp := 0xffffd000, eip := 0,
      zf := false, stack := fun _ => 0, out := [] }

/-! ## The reference interpreter

The machine the claim compares with, written after the words of the
specification (section 6) and the opcode usage comments of `navm.c`: an operand
stack of 32-bit integers, sixteen registers that start at zero, and the list of
printed integers. -/

/-- State of the reference interpreter. -/
structure Vm where
  pc : Nat
  stack : List Int
  regs : List Int
  out : List Int

/-- One instruction of the reference interpreter on the program
`fake_ptr[0..fake_len)`. Popping an empty stack, a register index above 15,
division by zero and an unknown opcode are faults; reaching `fake_len` or
`STOP` halts. -/
def ref_step (fake_ptr : Nat → byte) (fake_len : Nat) (v : Vm) : Next Vm :=
  if fake_len ≤ v.pc then .stop (.returned v.out)
  else
    let op := (fake_ptr v.pc).val
    let r := (fake_ptr (v.pc + 1)).val
    let addr := (fake_ptr (v.pc + 1)).val + 256 * (fake_ptr (v.pc + 2)).val
    if op = NOP then .continue { v with pc := v.pc + 1 }
    else if op = PUSH then
      .continue { v with stack := sint32 (imm32 fake_ptr (v.pc + 1)) :: v.stack, pc := v.pc + 5 }
    else if op = LOAD then
      if r < NREGS then .continue { v with stack := v.regs.getD r 0 :: v.stack, pc := v.pc + 2 }
      else .stop (.fault v.out)
    else if op = JMP then .continue { v with pc := addr }
    else if op = STOP then .stop (.returned v.out)
    else
      match v.stack with
      | [] => .stop (.fault v.out)
      | s1 :: rest =>
        if op = POP then .continue { v with stack := rest, pc := v.pc + 1 }
        else if op = STORE then
          if r < NREGS then .continue { v with stack := rest, regs := v.regs.set r s1, pc := v.pc + 2 }
          else .stop (.fault v.out)
        else if op = JZ then
          .continue { v with stack := rest, pc := if s1 = 0 then addr else v.pc + 3 }
        else if op = JNZ then
          .continue { v with stack := rest, pc := if s1 = 0 then v.pc + 3 else addr }
        else if op = PRINT then
          .continue { v with stack := rest, out := v.out ++ [s1], pc := v.pc + 1 }
        else
          match rest with
          | [] => .stop (.fault v.out)
          | s2 :: rest' =>
            if op = ADD then
              .continue { v with stack := sint32 (wrap32 (s2 + s1)) :: rest', pc := v.pc + 1 }
            else if op = SUB then
              .continue { v with stack := sint32 (wrap32 (s2 - s1)) :: rest', pc := v.pc + 1 }
            else if op = MUL then
              .continue { v with stack := sint32 (wrap32 (s2 * s1)) :: rest', pc := v.pc + 1 }
            else if op = DIV then
              if s1 = 0 then .stop (.fault v.out)
              else .continue { v with stack := sint32 (wrap32 (Int.tdiv s2 s1)) :: rest',
                                      pc := v.pc + 1 }
            else .stop (.fault v.out)

/-- The reference interpreter running for at most `fuel` instructions. -/
def ref_run (fake_ptr : Nat → byte) (fake_len : Nat) : Nat → Vm → Outcome
  | 0, v => .fuel_out v.out
  | fuel + 1, v =>
    match ref_step fake_ptr fake_len v with
    | .continue v' => ref_run fake_ptr fake_len fuel v'
    | .stop o => o

/-- The reference interpreter started on an empty stack and zeroed registers. -/
def reference (fake_ptr : Nat → byte) (fake_len : Nat) (fuel : Nat) : Outcome :=
  ref_run fake_ptr fake_len fuel
    { pc := 0, stack := [], regs := List.replicate NREGS 0, out := [] }

/-- The bytes `perform_conversion` has written: the region from its start up
to the final position of `real_ptr`. -/
def region_bytes (c : Cursor) : List byte := (List.range c.pos).map c.mem

/-- The region as the processor sees it: the bytes written, and behind them
the zeros of the fresh mapping. -/
def region_code (c : Cursor) : Nat → byte := fun k => (region_bytes c).getD k 0

/-- What running the translation of a program prints: `perform_conversion`
followed by the call of the region. -/
def native (env : Env) (fake : Nat → byte) (fake_len : Nat) (fuel : Nat) :
    Except Failure Outcome :=
  match perform_conversion env fake fake_len with
  | .error e => .error e
  | .ok c => .ok (call_region env (region_code c) fuel)

/-- The program `PUSH -6; PUSH 3; DIV; PRINT; STOP` (13 bytes). -/
def sample_div : List Nat := [1, 0xFA, 0xFF, 0xFF, 0xFF, 1, 3, 0, 0, 0, 11, 12, 13]

end Navm

namespace Navm

/-- The bytes the case of the instruction at bytecode offset `i` stores at
`real_ptr + j` in the first loop (jump fields still hold `CA BB A6 E5`). -/
def emitted (env : Env) (fake_ptr : Nat → byte) (i j : Nat) : List byte :=
  match (fake_ptr i).val with
  | 0x00 => [0x90]
  | 0x01 => [0x68, fake_ptr (i + 1), fake_ptr (i + 2), fake_ptr (i + 3), fake_ptr (i + 4)]
  | 0x02 => [0x5A]
  | 0x03 => [0xFF, 0x75, to_byte (-4 * (((fake_ptr (i + 1)).val : Int) + 1))]
  | 0x04 => [0x8F, 0x45, to_byte (-4 * (((fake_ptr (i + 1)).val : Int) + 1))]
  | 0x05 => [0xE9, 0xCA, 0xBB, 0xA6, 0xE5]
  | 0x06 => [0x59, 0x85, 0xC9, 0x0F, 0x84, 0xCA, 0xBB, 0xA6, 0xE5]
  | 0x07 => [0x59, 0x85, 0xC9, 0x0F, 0x85, 0xCA, 0xBB, 0xA6, 0xE5]
  | 0x08 => [0x5A, 0x59, 0x01, 0xD1, 0x51]
  | 0x09 => [0x5A, 0x59, 0x29, 0xD1, 0x51]
  | 0x0a => [0x5A, 0x59, 0x0F, 0xAF, 0xCA, 0x51]
  | 0x0b => [0x59, 0x58, 0x31, 0xD2, 0xF7, 0xF9, 0x50]
  | 0x0c =>
    [0x68] ++ int_bytes env.format_str ++ [0xE8]
      ++ int_bytes ((env.printf_addr : Int) - ((env.real_addr : Int) + j + 10)) ++ [0x5A, 0x5A]
  | 0x0d => [0xE9, 0xCA, 0xBB, 0xA6, 0xE5]
  | _ => []

end Navm

namespace Navm

/-- Number of bytes of the opcode's native code that precede its 4-byte jump
field; for an opcode without a jump field, its whole native length. -/
def fixed_len : Nat → Nat
  | 0x05 => 1
  | 0x06 => 5
  | 0x07 => 5
  | 0x0d => 1
  | op => nlen op

/-- The `n` bytes of `mem` from offset `j` on. -/
def bytes_at (mem : Nat → byte) (j n : Nat) : List byte :=
  (List.range n).map (fun m => mem (j + m))

end Navm

namespace Navm

/-- The bytes `perform_conversion` is to put before the body: `push %ebp`,
`mov %esp, %ebp` and sixteen times `push $0`. -/
def prologue : List byte := [0x55, 0x89, 0xE5] ++ (List.replicate 16 [0x6A, 0x00]).flatten

/-- The bytes `perform_conversion` is to put behind the body: sixteen times
`pop %eax`, then `leave` and `ret`. -/
def epilogue : List byte := List.replicate 16 0x58 ++ [0xC9, 0xC3]

/-- A run of statements `*(real_ptr++) = b`, one for each byte of `l`. -/
def puts (c : Cursor) (l : List byte) : Cursor := l.foldl put c

end Navm

namespace Navm

/-- The processor state after `n` instructions, if none of them stops the
run. -/
def x86_steps (env : Env) (code : Nat → byte) (ret_esp : Nat) : Nat → Cpu → Option Cpu
  | 0, c => some c
  | n + 1, c =>
    match x86_step env code ret_esp c with
    | .continue c' => x86_steps env code ret_esp n c'
    | .stop _ => none

/-- Code memory holding the bytes of `l` from offset 0 on, zero behind them. -/
def code_of (l : List byte) : Nat → byte := fun k => l.getD k 0

/-- A processor state about to run code at offset 0 with the 32-bit value
`s1` on top of the stack and `s2` beneath it. -/
def stack_entry (s2 s1 : Int) : Cpu :=
  { eax := 0, ecx := 0, edx := 0, ebp := 0xffffcffc, esp := 0xffffcf00, eip := 0, zf := false,
    stack := fun a => if a = 0xffffcf00 then wrap32 s1
                      else if a = 0xffffcf04 then wrap32 s2 else 0,
    out := [] }

end Navm

namespace Navm

/-- The number of `memcpy` calls of the second loop, run over the list `l`,
that store to the byte at offset `k`: each entry stores four bytes at its
`real_pos`. -/
def writes_to (l : List node) (k : Nat) : Nat :=
  l.countP (fun n => decide (n.real_pos ≤ k ∧ k < n.real_pos + 4))

/-- The indices of `fake_ptr` one iteration of the first loop reads when the
instruction starts at `i`: the opcode (in the `switch`, and again in the
`default` case), the four bytes `memcpy` copies for PUSH, the register byte of
LOAD and STORE, the two address bytes of JMP, JZ and JNZ. -/
def step_reads (fake_ptr : Nat → byte) (i : Nat) : List Nat :=
  match (fake_ptr i).val with
  | 0x01 => [i, i + 1, i + 2, i + 3, i + 4]
  | 0x03 => [i, i + 1]
  | 0x04 => [i, i + 1]
  | 0x05 => [i, i + 1, i + 2]
  | 0x06 => [i, i + 1, i + 2]
  | 0x07 => [i, i + 1, i + 2]
  | _ => [i]

/-- The indices of `fake_ptr` the first loop reads, in order, following
`pass_one` iteration by iteration. -/
def pass_one_reads (env : Env) (fake_ptr : Nat → byte) (fake_len : Nat) :
    Nat → State → List Nat
  | 0, _ => []
  | fuel + 1, s =>
    if s.i < fake_len then
      step_reads fake_ptr s.i ++
        (match step env fake_ptr fake_len s with
         | .ok s' => pass_one_reads env fake_ptr fake_len fuel s'
         | .error _ => [])
    else []

/-- The state in which `convert_opcodes` enters its first loop. -/
def initial_state (real_ptr : Nat → byte) (fake_len : Nat) : State :=
  { i := 0, j := 0, real_ptr := real_ptr, addr_table := List.replicate (fake_len + 1) 0,
    jump_locations := [] }

end Navm

namespace Navm

/-- The stores of the second loop over the list `l`, in the order it performs
them: for each entry one `memcpy(real_ptr + temp->real_pos, &addr_offset, 4)`,
given as destination offset and bytes copied. -/
def pass_two_stores (heap : Int → Int) (addr_table : List Int) (l : List node) :
    List (Nat × List byte) :=
  l.map (fun temp =>
    (temp.real_pos,
      int_bytes (table_read heap addr_table temp.fake_addr - ((temp.real_pos : Int) + 4))))

/-- The buffer after a sequence of stores. -/
def apply_stores (stores : List (Nat × List byte)) (real_ptr : Nat → byte) : Nat → byte :=
  stores.foldl (fun mem st => memcpy mem st.1 st.2) real_ptr

/-- The number of stores of a sequence that write the byte at offset `k`. -/
def stores_covering (stores : List (Nat × List byte)) (k : Nat) : Nat :=
  stores.countP (fun st => decide (st.1 ≤ k ∧ k < st.1 + st.2.length))

end Navm

/-! ## Auxiliary facts -/

namespace Navm

set_option maxRecDepth 100000

theorem to_short_idem (x : Int) : to_short (to_short x) = to_short x := by
  unfold to_short; omega

theorem step_ok {env : Env} {fake_ptr : Nat → byte} {fake_len : Nat} {s s' : State}
    (h : step env fake_ptr fake_len s = .ok s') :
    ∃ b, blen (fake_ptr s.i).val = some b ∧ s'.i = s.i + b ∧
      s'.j = s.j + nlen (fake_ptr s.i).val ∧
      s'.addr_table = s.addr_table.set s.i (s.j : Int) ∧
      s'.jump_locations = new_jumps fake_ptr fake_len s.i s.j ++ s.jump_locations := by
  unfold step at h
  dsimp only at h
  split at h <;> first
    | (injection h with h; subst h
       simp [blen, nlen, new_jumps, prepend_to_list, to_short_idem, *])
    | (exact absurd h (by simp))

theorem step_error {env : Env} {fake_ptr : Nat → byte} {fake_len : Nat} {s : State} {e : Failure}
    (h : step env fake_ptr fake_len s = .error e) :
    blen (fake_ptr s.i).val = none ∧ e = .invalid_instruction (fake_ptr s.i) := by
  unfold step at h
  dsimp only at h
  split at h
  all_goals try (simp at h; done)
  injection h with h
  refine ⟨?_, h.symm⟩
  unfold blen
  split <;> simp_all

theorem blen_pos {op b : Nat} (h : blen op = some b) : 1 ≤ b ∧ b ≤ 5 := by
  unfold blen at h
  split at h <;> simp at h <;> omega

theorem nlen_le (op : Nat) : nlen op ≤ 12 := by
  unfold nlen
  split <;> omega

theorem nlen_pos {op b : Nat} (h : blen op = some b) : 1 ≤ nlen op := by
  unfold blen at h
  unfold nlen
  split at h <;> simp at h <;> simp

theorem blen_none {op : Nat} : blen op = none ↔ 13 < op := by
  unfold blen
  constructor
  · intro h
    split at h <;> simp at h
    by_contra hc
    have : op ≤ 13 := by omega
    interval_cases op <;> simp_all
  · intro h
    split <;> first | omega | rfl

theorem starts_from_fuel_eq (fake_ptr : Nat → byte) (fake_len : Nat) :
    ∀ (fuel fuel' i : Nat), fake_len - i ≤ fuel → fake_len - i ≤ fuel' →
      starts_from fake_ptr fake_len fuel i = starts_from fake_ptr fake_len fuel' i := by
  intro fuel
  induction fuel with
  | zero =>
    intro fuel' i h h'
    cases fuel' with
    | zero => rfl
    | succ m =>
      have hlt : ¬ i < fake_len := by omega
      simp [starts_from, hlt]
  | succ n ih =>
    intro fuel' i h h'
    by_cases hlt : i < fake_len
    · cases fuel' with
      | zero => omega
      | succ m =>
        simp only [starts_from, hlt, if_true]
        cases hb : blen (fake_ptr i).val with
        | none => rfl
        | some b =>
          have hp := blen_pos hb
          simp only
          rw [ih m (i + b) (by omega) (by omega)]
    · cases fuel' with
      | zero => simp [starts_from, hlt]
      | succ m => simp [starts_from, hlt]

theorem starts_from_fuel (fake_ptr : Nat → byte) (fake_len : Nat) (fuel i : Nat)
    (h : fake_len - i ≤ fuel) :
    starts_from fake_ptr fake_len fuel i = starts_at fake_ptr fake_len i :=
  starts_from_fuel_eq fake_ptr fake_len fuel (fake_len - i) i h (Nat.le_refl _)

theorem starts_at_ge {fake_ptr : Nat → byte} {fake_len i : Nat} (h : fake_len ≤ i) :
    starts_at fake_ptr fake_len i = [] := by
  have h0 : fake_len - i = 0 := by omega
  simp [starts_at, h0, starts_from]

theorem starts_at_some {fake_ptr : Nat → byte} {fake_len i b : Nat} (h : i < fake_len)
    (hb : blen (fake_ptr i).val = some b) :
    starts_at fake_ptr fake_len i = i :: starts_at fake_ptr fake_len (i + b) := by
  have hp := blen_pos hb
  obtain ⟨m, hm⟩ : ∃ m, fake_len - i = m + 1 := ⟨fake_len - i - 1, by omega⟩
  rw [starts_at, hm]
  simp only [starts_from, h, if_true, hb]
  rw [starts_from_fuel fake_ptr fake_len m (i + b) (by omega)]

theorem starts_at_none {fake_ptr : Nat → byte} {fake_len i : Nat} (h : i < fake_len)
    (hb : blen (fake_ptr i).val = none) :
    starts_at fake_ptr fake_len i = [i] := by
  obtain ⟨m, hm⟩ : ∃ m, fake_len - i = m + 1 := ⟨fake_len - i - 1, by omega⟩
  rw [starts_at, hm]
  simp only [starts_from, h, if_true, hb]

/-- Members of `starts_at i` lie in `[i, fake_len)`. -/
theorem starts_at_bounds (fake_ptr : Nat → byte) (fake_len : Nat) :
    ∀ (fuel i a : Nat), a ∈ starts_from fake_ptr fake_len fuel i → i ≤ a ∧ a < fake_len := by
  intro fuel
  induction fuel with
  | zero => intro i a h; simp [starts_from] at h
  | succ n ih =>
    intro i a h
    simp only [starts_from] at h
    split_ifs at h with hlt
    · rcases List.mem_cons.mp h with h1 | h1
      · omega
      · cases hb : blen (fake_ptr i).val with
        | none => simp [hb] at h1
        | some b =>
          simp only [hb] at h1
          have := ih (i + b) a h1
          omega
    · simp at h

/-- A completed run of `pass_one` is a `Run`. -/
theorem pass_one_run {env : Env} {fake_ptr : Nat → byte} {fake_len : Nat} :
    ∀ (fuel : Nat) (s t : State), fake_len - s.i ≤ fuel →
      pass_one env fake_ptr fake_len fuel s = .ok t → Run env fake_ptr fake_len s t := by
  intro fuel
  induction fuel with
  | zero =>
    intro s t hf h
    simp only [pass_one] at h
    injection h with h
    subst h
    exact Run.done s (by omega)
  | succ n ih =>
    intro s t hf h
    simp only [pass_one] at h
    split_ifs at h with hlt
    · cases hs : step env fake_ptr fake_len s with
      | error e => simp [hs] at h
      | ok s' =>
        simp only [hs] at h
        obtain ⟨b, hb, hi, -⟩ := step_ok hs
        have hp := blen_pos hb
        exact Run.next s s' t hlt hs (ih s' t (by omega) h)
    · injection h with h
      subst h
      exact Run.done s (by omega)

/-- A `Run` is what `pass_one` computes with any sufficient fuel: the loop
terminates, and its result does not depend on the fuel. -/
theorem run_pass_one {env : Env} {fake_ptr : Nat → byte} {fake_len : Nat} {s t : State}
    (h : Run env fake_ptr fake_len s t) :
    ∀ fuel, fake_len - s.i ≤ fuel → pass_one env fake_ptr fake_len fuel s = .ok t := by
  induction h with
  | done s hs =>
    intro fuel _
    cases fuel with
    | zero => rfl
    | succ n => simp [pass_one, Nat.not_lt.mpr hs]
  | next s s' t hlt hs _ ih =>
    intro fuel hf
    obtain ⟨b, hb, hi, -⟩ := step_ok hs
    have hp := blen_pos hb
    cases fuel with
    | zero => omega
    | succ n =>
      simp only [pass_one, hlt, if_true, hs]
      exact ih n (by omega)

theorem new_jumps_mem {fake_ptr : Nat → byte} {fake_len i j : Nat} {n : node}
    (h : n ∈ new_jumps fake_ptr fake_len i j) :
    j ≤ n.real_pos ∧ n.real_pos + 4 ≤ j + nlen (fake_ptr i).val := by
  unfold new_jumps at h
  split at h <;> simp at h <;> subst h <;> simp [nlen, *]

theorem new_jumps_pairwise (fake_ptr : Nat → byte) (fake_len i j : Nat) :
    (new_jumps fake_ptr fake_len i j).Pairwise (fun a b => b.real_pos + 4 ≤ a.real_pos) := by
  unfold new_jumps
  split <;> simp

/-- Counters after the first loop: the exit test holds, `j` grew by at most
12 per byte of bytecode consumed, and the table kept its size. -/
theorem run_counters {env : Env} {fake_ptr : Nat → byte} {fake_len : Nat} {s t : State}
    (h : Run env fake_ptr fake_len s t) :
    s.i ≤ t.i ∧ fake_len ≤ t.i ∧ s.j ≤ t.j ∧
      t.j + 12 * (fake_len - t.i) ≤ s.j + 12 * (fake_len - s.i) ∧
      t.addr_table.length = s.addr_table.length := by
  induction h with
  | done s hs => exact ⟨le_refl _, hs, le_refl _, le_refl _, rfl⟩
  | next s s' t hlt hs _ ih =>
    obtain ⟨h1, h2, h3, h4, h5⟩ := ih
    obtain ⟨b, hb, hi, hj, ht, hjl⟩ := step_ok hs
    have hp := blen_pos hb
    have hn := nlen_le (fake_ptr s.i).val
    refine ⟨by omega, h2, by omega, by omega, ?_⟩
    rw [h5, ht, List.length_set]

/-- Entries of the table outside `[s.i, fake_len)` are not written by the loop. -/
theorem run_table_frame {env : Env} {fake_ptr : Nat → byte} {fake_len : Nat} {s t : State}
    (h : Run env fake_ptr fake_len s t) :
    ∀ k, k < s.i ∨ fake_len ≤ k → t.addr_table[k]? = s.addr_table[k]? := by
  induction h with
  | done s hs => intro k _; rfl
  | next s s' t hlt hs _ ih =>
    intro k hk
    obtain ⟨b, hb, hi, hj, ht, hjl⟩ := step_ok hs
    have hp := blen_pos hb
    rw [ih k (by omega), ht, List.getElem?_set_ne (by omega)]

/-- The pending jumps the loop adds: the list only grows at its head, the new
patch sites lie in the code the loop emitted, newest first and at least four
bytes apart. -/
theorem run_jumps {env : Env} {fake_ptr : Nat → byte} {fake_len : Nat} {s t : State}
    (h : Run env fake_ptr fake_len s t) :
    ∃ N, t.jump_locations = N ++ s.jump_locations ∧
      (∀ n ∈ N, s.j ≤ n.real_pos ∧ n.real_pos + 4 ≤ t.j) ∧
      N.Pairwise (fun a b => b.real_pos + 4 ≤ a.real_pos) := by
  induction h with
  | done s hs => exact ⟨[], rfl, by simp, List.Pairwise.nil⟩
  | next s s' t hlt hs hrun ih =>
    obtain ⟨N, h1, h2, h3⟩ := ih
    obtain ⟨b, hb, hi, hj, ht, hjl⟩ := step_ok hs
    have hc := run_counters hrun
    refine ⟨N ++ new_jumps fake_ptr fake_len s.i s.j, ?_, ?_, ?_⟩
    · rw [h1, hjl, List.append_assoc]
    · intro n hn
      rcases List.mem_append.mp hn with hn | hn
      · have := h2 n hn
        omega
      · have := new_jumps_mem hn
        omega
    · rw [List.pairwise_append]
      refine ⟨h3, new_jumps_pairwise _ _ _ _, ?_⟩
      intro x hx y hy
      have := h2 x hx
      have := new_jumps_mem hy
      omega

/-- The table at the instruction starts the loop visits: each holds the native
offset at which its instruction was emitted, a value in `[s.j, t.j)`; the
opcode there is known; the pending jumps of the instruction are on the list;
and later starts hold larger offsets. -/
theorem run_table_starts {env : Env} {fake_ptr : Nat → byte} {fake_len : Nat} {s t : State}
    (h : Run env fake_ptr fake_len s t) (hlen : s.addr_table.length = fake_len + 1) :
    ∀ a ∈ starts_at fake_ptr fake_len s.i, ∃ ja : Nat,
      t.addr_table[a]? = some (ja : Int) ∧ s.j ≤ ja ∧ ja < t.j ∧
      (fake_ptr a).val ≤ 13 ∧
      (∀ n ∈ new_jumps fake_ptr fake_len a ja, n ∈ t.jump_locations) ∧
      (∀ b ∈ starts_at fake_ptr fake_len s.i, a < b →
        ∃ jb : Nat, t.addr_table[b]? = some (jb : Int) ∧ ja < jb) := by
  induction h with
  | done s hs => intro a ha; simp [starts_at_ge hs] at ha
  | next s s' t hlt hs hrun ih =>
    obtain ⟨b, hb, hi, hj, ht, hjl⟩ := step_ok hs
    have hp := blen_pos hb
    have hnp := nlen_pos hb
    have hlen' : s'.addr_table.length = fake_len + 1 := by rw [ht, List.length_set, hlen]
    have ih := ih hlen'
    have hc := run_counters hrun
    have hfr := run_table_frame hrun
    have hjs : ∀ n ∈ s'.jump_locations, n ∈ t.jump_locations := by
      obtain ⟨N, hN, -⟩ := run_jumps hrun
      intro n hn
      rw [hN]
      exact List.mem_append_right _ hn
    rw [starts_at_some hlt hb]
    intro a ha
    rcases List.mem_cons.mp ha with ha | ha
    · subst ha
      refine ⟨s.j, ?_, le_refl _, by omega, ?_, ?_, ?_⟩
      · rw [hfr _ (Or.inl (by omega)), ht, List.getElem?_set_self (by omega)]
      · by_contra hc
        have := blen_none.mpr (by omega : 13 < (fake_ptr s.i).val)
        rw [this] at hb
        exact absurd hb (by simp)
      · intro n hn
        exact hjs n (by rw [hjl]; exact List.mem_append_left _ hn)
      · intro c hcm hac
        rcases List.mem_cons.mp hcm with hcm | hcm
        · omega
        · obtain ⟨jc, h1, h2, -⟩ := ih c (hi ▸ hcm)
          exact ⟨jc, h1, by omega⟩
    · obtain ⟨ja, h1, h2, h3, h4, h5, h6⟩ := ih a (hi ▸ ha)
      refine ⟨ja, h1, by omega, h3, h4, h5, ?_⟩
      intro c hcm hac
      rcases List.mem_cons.mp hcm with hcm | hcm
      · have := (starts_at_bounds fake_ptr fake_len _ _ a ha).1
        omega
      · exact h6 c (hi ▸ hcm) hac

theorem int_bytes_length (x : Int) : (int_bytes x).length = 4 := by
  simp [int_bytes]

theorem memcpy_inside (dst : Nat → byte) (off : Nat) (src : List byte) (k : Nat)
    (h : k < src.length) : memcpy dst off src (off + k) = src.getD k 0 := by
  simp [memcpy, h]

theorem memcpy_outside (dst : Nat → byte) (off : Nat) (src : List byte) (k : Nat)
    (h : k < off ∨ off + src.length ≤ k) : memcpy dst off src k = dst k := by
  unfold memcpy
  rw [if_neg]
  omega

/-- The second loop writes only inside the patch sites of the listed jumps. -/
theorem fill_jumps_frame (heap : Int → Int) (addr_table : List Int) :
    ∀ (l : List node) (real_ptr : Nat → byte) (k : Nat),
      (∀ m ∈ l, k < m.real_pos ∨ m.real_pos + 4 ≤ k) →
      fill_jumps heap addr_table l real_ptr k = real_ptr k := by
  intro l
  induction l with
  | nil => intro real_ptr k _; rfl
  | cons m rest ih =>
    intro real_ptr k h
    simp only [fill_jumps]
    rw [ih _ k (fun x hx => h x (List.mem_cons_of_mem _ hx))]
    apply memcpy_outside
    rw [int_bytes_length]
    exact h m (List.mem_cons_self _ _)

/-- After the second loop every patch site holds the four bytes of its own
displacement, provided the patch sites do not overlap. -/
theorem fill_jumps_site (heap : Int → Int) (addr_table : List Int) :
    ∀ (l : List node) (real_ptr : Nat → byte),
      l.Pairwise (fun a b => b.real_pos + 4 ≤ a.real_pos) →
      ∀ n ∈ l, ∀ k, k < 4 →
        fill_jumps heap addr_table l real_ptr (n.real_pos + k) =
          (int_bytes (table_read heap addr_table n.fake_addr - ((n.real_pos : Int) + 4))).getD k 0 := by
  intro l
  induction l with
  | nil => intro real_ptr _ n hn; simp at hn
  | cons m rest ih =>
    intro real_ptr hp n hn k hk
    rw [List.pairwise_cons] at hp
    simp only [fill_jumps]
    rcases List.mem_cons.mp hn with hn | hn
    · subst hn
      rw [fill_jumps_frame heap addr_table rest _ _
        (fun x hx => Or.inr (by have := hp.1 x hx; omega))]
      exact memcpy_inside _ _ _ _ (by rw [int_bytes_length]; exact hk)
    · exact ih _ hp.2 n hn k hk

/-- The value of the four bytes `int_bytes x`, read as a little-endian
unsigned number, is `x` modulo `2^32`. -/
theorem int_bytes_value (x : Int) :
    (((int_bytes x).getD 0 0).val : Int) + 256 * ((int_bytes x).getD 1 0).val
      + 65536 * ((int_bytes x).getD 2 0).val + 16777216 * ((int_bytes x).getD 3 0).val
      = x % 4294967296 := by
  simp only [int_bytes, to_byte, List.getD_cons_zero, List.getD_cons_succ]
  have h0 : 0 ≤ x % 4294967296 := Int.emod_nonneg _ (by norm_num)
  have h1 : x % 4294967296 < 4294967296 := Int.emod_lt_of_pos _ (by norm_num)
  generalize x % 4294967296 = u at h0 h1
  omega

/-- Unfolding of a successful `convert_opcodes`. -/
theorem convert_ok {env : Env} {fake_ptr real_ptr : Nat → byte} {fake_len : Nat}
    {r : Converted} (h : convert_opcodes env fake_ptr real_ptr fake_len = .ok r) :
    ∃ t, Run env fake_ptr fake_len
        { i := 0, j := 0, real_ptr, addr_table := List.replicate (fake_len + 1) 0,
          jump_locations := [] } t ∧
      r.len = t.j ∧
      r.real_ptr = fill_jumps env.heap (t.addr_table.set fake_len (t.j : Int))
        t.jump_locations t.real_ptr ∧
      r.addr_table = t.addr_table.set fake_len (t.j : Int) ∧
      r.jump_locations = t.jump_locations := by
  unfold convert_opcodes at h
  dsimp only at h
  split at h
  · exact absurd h (by simp)
  · rename_i t ht
    injection h with h
    subst h
    exact ⟨t, pass_one_run _ _ _ (by simp) ht, rfl, rfl, rfl, rfl⟩

/-- Every pending jump on the list after the loop was there before or was put
there by the instruction at one of the visited starts. -/
theorem run_jumps_origin {env : Env} {fake_ptr : Nat → byte} {fake_len : Nat} {s t : State}
    (h : Run env fake_ptr fake_len s t) (hlen : s.addr_table.length = fake_len + 1) :
    ∀ n ∈ t.jump_locations, n ∈ s.jump_locations ∨
      ∃ a ∈ starts_at fake_ptr fake_len s.i, ∃ ja : Nat,
        t.addr_table[a]? = some (ja : Int) ∧ n ∈ new_jumps fake_ptr fake_len a ja := by
  induction h with
  | done s hs => intro n hn; exact Or.inl hn
  | next s s' t hlt hs hrun ih =>
    obtain ⟨b, hb, hi, hj, ht, hjl⟩ := step_ok hs
    have hp := blen_pos hb
    have hlen' : s'.addr_table.length = fake_len + 1 := by rw [ht, List.length_set, hlen]
    have hfr := run_table_frame hrun
    intro n hn
    rw [starts_at_some hlt hb]
    rcases ih hlen' n hn with h1 | ⟨a, ha, ja, h2, h3⟩
    · rw [hjl] at h1
      rcases List.mem_append.mp h1 with h1 | h1
      · refine Or.inr ⟨s.i, List.mem_cons_self _ _, s.j, ?_, h1⟩
        rw [hfr _ (Or.inl (by omega)), ht, List.getElem?_set_self (by omega)]
      · exact Or.inl h1
    · exact Or.inr ⟨a, List.mem_cons_of_mem _ (hi ▸ ha), ja, h2, h3⟩

/-- An iteration on a known opcode does not exit. -/
theorem step_total (env : Env) (fake_ptr : Nat → byte) (fake_len : Nat) {s : State}
    (h : (fake_ptr s.i).val ≤ 13) : ∃ s', step env fake_ptr fake_len s = .ok s' := by
  cases hs : step env fake_ptr fake_len s with
  | ok s' => exact ⟨s', rfl⟩
  | error e =>
    have := blen_none.mp (step_error hs).1
    omega

/-- When every instruction start holds a known opcode, the first loop
completes. -/
theorem run_exists (env : Env) (fake_ptr : Nat → byte) (fake_len : Nat) :
    ∀ (m : Nat) (s : State), fake_len - s.i ≤ m →
      (∀ a ∈ starts_at fake_ptr fake_len s.i, (fake_ptr a).val ≤ 13) →
      ∃ t, Run env fake_ptr fake_len s t := by
  intro m
  induction m with
  | zero =>
    intro s hm _
    exact ⟨s, Run.done s (by omega)⟩
  | succ m ih =>
    intro s hm hall
    by_cases hlt : s.i < fake_len
    · have hop : (fake_ptr s.i).val ≤ 13 := by
        apply hall
        cases hb : blen (fake_ptr s.i).val with
        | none => rw [starts_at_none hlt hb]; exact List.mem_cons_self _ _
        | some b => rw [starts_at_some hlt hb]; exact List.mem_cons_self _ _
      obtain ⟨s', hs⟩ := step_total env fake_ptr fake_len hop
      obtain ⟨b, hb, hi, -⟩ := step_ok hs
      have hp := blen_pos hb
      obtain ⟨t, ht⟩ := ih s' (by omega) (by
        intro a ha
        apply hall
        rw [starts_at_some hlt hb]
        exact List.mem_cons_of_mem _ (hi ▸ ha))
      exact ⟨t, Run.next s s' t hlt hs ht⟩
    · exact ⟨s, Run.done s (by omega)⟩

/-- A fatal exit of the first loop happens at an instruction start holding an
unknown opcode, the first such start, and reports the byte found there. -/
theorem pass_one_error {env : Env} {fake_ptr : Nat → byte} {fake_len : Nat} :
    ∀ (fuel : Nat) (s : State) (e : Failure),
      pass_one env fake_ptr fake_len fuel s = .error e →
      ∃ a ∈ starts_at fake_ptr fake_len s.i, 13 < (fake_ptr a).val ∧
        e = .invalid_instruction (fake_ptr a) ∧
        ∀ k ∈ starts_at fake_ptr fake_len s.i, k < a → (fake_ptr k).val ≤ 13 := by
  intro fuel
  induction fuel with
  | zero => intro s e h; simp [pass_one] at h
  | succ n ih =>
    intro s e h
    simp only [pass_one] at h
    split_ifs at h with hlt
    · cases hs : step env fake_ptr fake_len s with
      | error e' =>
        simp only [hs] at h
        injection h with h
        subst h
        obtain ⟨hb, he⟩ := step_error hs
        rw [starts_at_none hlt hb]
        refine ⟨s.i, List.mem_cons_self _ _, blen_none.mp hb, he, ?_⟩
        intro k hk hks
        simp at hk
        omega
      | ok s' =>
        simp only [hs] at h
        obtain ⟨b, hb, hi, -⟩ := step_ok hs
        have hp := blen_pos hb
        obtain ⟨a, ha, h1, h2, h3⟩ := ih s' e h
        rw [starts_at_some hlt hb]
        refine ⟨a, List.mem_cons_of_mem _ (hi ▸ ha), h1, h2, ?_⟩
        intro k hk hka
        rcases List.mem_cons.mp hk with hk | hk
        · subst hk
          by_contra hc
          have := blen_none.mpr (by omega : 13 < (fake_ptr s.i).val)
          rw [this] at hb
          exact absurd hb (by simp)
        · exact h3 k (hi ▸ hk) hka

/-- Unfolding of a failed `convert_opcodes`. -/
theorem convert_error {env : Env} {fake_ptr real_ptr : Nat → byte} {fake_len : Nat}
    {e : Failure} (h : convert_opcodes env fake_ptr real_ptr fake_len = .error e) :
    pass_one env fake_ptr fake_len fake_len
      { i := 0, j := 0, real_ptr, addr_table := List.replicate (fake_len + 1) 0,
        jump_locations := [] } = .error e := by
  unfold convert_opcodes at h
  dsimp only at h
  split at h
  · rename_i e' he
    injection h with h
    subst h
    exact he
  · exact absurd h (by simp)

/-- The initial state of the first loop has a table of `fake_len + 1` entries. -/
theorem init_table_length (fake_len : Nat) :
    (List.replicate (fake_len + 1) (0 : Int)).length = fake_len + 1 := by
  simp

/-- The table after `convert_opcodes`, below the sentinel, is the table the
first loop built. -/
theorem final_table_below {t : State} {fake_len a : Nat} (ha : a < fake_len) :
    (t.addr_table.set fake_len (t.j : Int))[a]? = t.addr_table[a]? :=
  List.getElem?_set_ne (by omega)

/-- One iteration writes the destination only at `j .. j + 11`. -/
theorem step_real_frame {env : Env} {fake_ptr : Nat → byte} {fake_len : Nat} {s s' : State}
    (h : step env fake_ptr fake_len s = .ok s') :
    ∀ k, k < s.j ∨ s.j + nlen (fake_ptr s.i).val ≤ k → s'.real_ptr k = s.real_ptr k := by
  intro k hk
  unfold step at h
  dsimp only at h
  split at h <;> first
    | (injection h with h; subst h
       rename_i hop
       simp only [hop, nlen] at hk
       simp only [memcpy, int_bytes, List.length_cons, List.length_nil]
       repeat rw [if_neg (by omega)])
    | (exact absurd h (by simp))

/-- A completed first loop makes `convert_opcodes` succeed with the result
assembled from its final state. -/
theorem convert_of_run {env : Env} {fake_ptr real_ptr : Nat → byte} {fake_len : Nat}
    {t : State}
    (h : Run env fake_ptr fake_len
      { i := 0, j := 0, real_ptr, addr_table := List.replicate (fake_len + 1) 0,
        jump_locations := [] } t) :
    convert_opcodes env fake_ptr real_ptr fake_len =
      .ok { len := t.j,
            real_ptr := fill_jumps env.heap (t.addr_table.set fake_len (t.j : Int))
              t.jump_locations t.real_ptr,
            addr_table := t.addr_table.set fake_len (t.j : Int),
            jump_locations := t.jump_locations } := by
  have hp := run_pass_one h fake_len (by simp)
  unfold convert_opcodes
  simp only [hp]

/-- The pending jumps of the first instruction the loop translates are on the
final list. -/
theorem run_first {env : Env} {fake_ptr : Nat → byte} {fake_len : Nat} {s t : State}
    (h : Run env fake_ptr fake_len s t) (hlt : s.i < fake_len) :
    ∀ n ∈ new_jumps fake_ptr fake_len s.i s.j, n ∈ t.jump_locations := by
  cases h with
  | done hs => omega
  | next _ s' _ hlt' hs hrun =>
    obtain ⟨b, hb, hi, hj, ht, hjl⟩ := step_ok hs
    obtain ⟨N, hN, -⟩ := run_jumps hrun
    intro n hn
    rw [hN, hjl]
    exact List.mem_append_right _ (List.mem_append_left _ hn)

/-- The targets `new_jumps` records: the program length for `STOP`, the
operand for the three jumps, each converted to `short`. -/
theorem new_jumps_target {fake_ptr : Nat → byte} {fake_len i j : Nat} {n : node}
    (h : n ∈ new_jumps fake_ptr fake_len i j) :
    ((fake_ptr i).val = 13 ∧ n.fake_addr = to_short fake_len) ∨
    (((fake_ptr i).val = 5 ∨ (fake_ptr i).val = 6 ∨ (fake_ptr i).val = 7) ∧
      n.fake_addr = to_short (jmp_operand fake_ptr i)) := by
  unfold new_jumps at h
  split at h <;> simp at h <;> subst h <;> simp [*]

/-- Inside the written part, the processor fetches what `perform_conversion`
stored. -/
theorem region_code_eq (c : Cursor) (k : Nat) (h : k < c.pos) : region_code c k = c.mem k := by
  simp [region_code, region_bytes, List.getD_eq_getElem?_getD, h]

/-- The two machines on programs that do not divide a negative number: both
print 5 for `PUSH 2; PUSH 3; ADD; PRINT; STOP`, and both print nothing for
`PUSH 1; STORE 0; PUSH 0; JZ 21; PUSH 9; PRINT; STOP`. -/
theorem native_agrees_on_samples :
    native env_mmap (program sample_add) 13 100 = .ok (.returned [5]) ∧
    reference (program sample_add) 13 100 = .returned [5] ∧
    native env_mmap (program sample_jz) 22 100 = .ok (.returned []) ∧
    reference (program sample_jz) 22 100 = .returned [] :=
  ⟨by rfl, by decide, by rfl, by decide⟩

/-- For every program the loader accepts (`fake_len ≤ MAX_INSTS`) the counters
of `convert_opcodes` stay far below `2^31`: the C `int`s do not overflow. -/
theorem counters_fit_int {env : Env} {fake_ptr real_ptr : Nat → byte} {fake_len : Nat}
    {r : Converted} (h : convert_opcodes env fake_ptr real_ptr fake_len = .ok r)
    (hl : fake_len ≤ MAX_INSTS) :
    r.len ≤ 786432 ∧ ∀ n ∈ r.jump_locations, n.real_pos + 4 ≤ r.len := by
  obtain ⟨t, hrun, hlen, -, -, hjl⟩ := convert_ok h
  have hc := run_counters hrun
  obtain ⟨N, hN, hb, -⟩ := run_jumps hrun
  simp only [MAX_INSTS] at hl
  constructor
  · have := hc.2.2.2.1
    simp only at this
    omega
  · intro n hn
    rw [hjl, hN, List.append_nil] at hn
    rw [hlen]
    exact (hb n hn).2

theorem emitted_length (env : Env) (fake_ptr : Nat → byte) (i j : Nat) :
    (emitted env fake_ptr i j).length = nlen (fake_ptr i).val := by
  unfold emitted nlen
  split <;> simp [int_bytes]

/-- One iteration stores the bytes `emitted` at `real_ptr + j`. -/
theorem step_emits {env : Env} {fake_ptr : Nat → byte} {fake_len : Nat} {s s' : State}
    (h : step env fake_ptr fake_len s = .ok s') :
    ∀ m, m < nlen (fake_ptr s.i).val →
      s'.real_ptr (s.j + m) = (emitted env fake_ptr s.i s.j).getD m 0 := by
  intro m hm
  unfold step at h
  dsimp only at h
  split at h <;> first
    | (injection h with h; subst h
       rename_i hop
       simp only [hop, nlen] at hm
       simp only [emitted, hop]
       interval_cases m <;> simp [memcpy, int_bytes])
    | (exact absurd h (by simp))

theorem fixed_len_le (op : Nat) : fixed_len op ≤ nlen op := by
  unfold fixed_len
  split <;> simp [nlen]

/-- The patch site of a pending jump starts right after the fixed bytes of
its instruction. -/
theorem new_jumps_pos {fake_ptr : Nat → byte} {fake_len i j : Nat} {n : node}
    (h : n ∈ new_jumps fake_ptr fake_len i j) :
    n.real_pos = j + fixed_len (fake_ptr i).val := by
  unfold new_jumps at h
  split at h <;> simp at h <;> subst h <;> simp [fixed_len, *]

/-- A loop entered past the end of the program does nothing. -/
theorem run_done {env : Env} {fake_ptr : Nat → byte} {fake_len : Nat} {s t : State}
    (h : Run env fake_ptr fake_len s t) (hs : fake_len ≤ s.i) : t = s := by
  cases h with
  | done _ => rfl
  | next _ s' _ hlt _ _ => omega

/-- The loop leaves the destination below its starting `j` untouched. -/
theorem run_real_frame {env : Env} {fake_ptr : Nat → byte} {fake_len : Nat} {s t : State}
    (h : Run env fake_ptr fake_len s t) :
    ∀ k, k < s.j → t.real_ptr k = s.real_ptr k := by
  induction h with
  | done s hs => intro k _; rfl
  | next s s' t hlt hs _ ih =>
    intro k hk
    obtain ⟨b, hb, hi, hj, -⟩ := step_ok hs
    rw [ih k (by omega), step_real_frame hs k (Or.inl hk)]

/-- The table entry of the first instruction the loop translates. -/
theorem run_table_first {env : Env} {fake_ptr : Nat → byte} {fake_len : Nat} {s t : State}
    (h : Run env fake_ptr fake_len s t) (hlt : s.i < fake_len)
    (hlen : s.addr_table.length = fake_len + 1) :
    t.addr_table[s.i]? = some (s.j : Int) := by
  cases h with
  | done hs => omega
  | next _ s' _ hlt' hs hrun =>
    obtain ⟨b, hb, hi, hj, ht, -⟩ := step_ok hs
    have hp := blen_pos hb
    rw [run_table_frame hrun _ (Or.inl (by omega)), ht, List.getElem?_set_self (by omega)]

theorem starts_at_self {fake_ptr : Nat → byte} {fake_len i : Nat} (h : i < fake_len) :
    i ∈ starts_at fake_ptr fake_len i := by
  cases hb : blen (fake_ptr i).val with
  | none => rw [starts_at_none h hb]; exact List.mem_cons_self _ _
  | some b => rw [starts_at_some h hb]; exact List.mem_cons_self _ _

/-- The layout the first loop produces. For every instruction start `a` it
visits: the table holds the native offset `ja` of the instruction; its native
code lies in `[ja, ja + nlen)` inside `[s.j, t.j)` and holds the emitted bytes;
later starts begin at or after `ja + nlen`; and the instruction that follows
(or, if there is none, the end of the code) begins exactly at `ja + nlen`. -/
theorem run_layout {env : Env} {fake_ptr : Nat → byte} {fake_len : Nat} {s t : State}
    (h : Run env fake_ptr fake_len s t) (hlen : s.addr_table.length = fake_len + 1) :
    ∀ a ∈ starts_at fake_ptr fake_len s.i, ∃ ja : Nat,
      t.addr_table[a]? = some (ja : Int) ∧ s.j ≤ ja ∧ ja + nlen (fake_ptr a).val ≤ t.j ∧
      (∀ m, m < nlen (fake_ptr a).val →
        t.real_ptr (ja + m) = (emitted env fake_ptr a ja).getD m 0) ∧
      (∀ b ∈ starts_at fake_ptr fake_len s.i, a < b →
        ∃ jb : Nat, t.addr_table[b]? = some (jb : Int) ∧ ja + nlen (fake_ptr a).val ≤ jb) ∧
      (∀ bl, blen (fake_ptr a).val = some bl →
        (a + bl < fake_len → a + bl ∈ starts_at fake_ptr fake_len s.i ∧
          t.addr_table[a + bl]? = some ((ja + nlen (fake_ptr a).val : Nat) : Int)) ∧
        (fake_len ≤ a + bl → t.j = ja + nlen (fake_ptr a).val)) := by
  induction h with
  | done s hs => intro a ha; simp [starts_at_ge hs] at ha
  | next s s' t hlt hs hrun ih =>
    obtain ⟨b, hb, hi, hj, ht, hjl⟩ := step_ok hs
    have hp := blen_pos hb
    have hlen' : s'.addr_table.length = fake_len + 1 := by rw [ht, List.length_set, hlen]
    have ih := ih hlen'
    have hc := run_counters hrun
    have hfr := run_table_frame hrun
    rw [starts_at_some hlt hb]
    intro a ha
    rcases List.mem_cons.mp ha with ha | ha
    · subst ha
      refine ⟨s.j, ?_, le_refl _, by omega, ?_, ?_, ?_⟩
      · rw [hfr _ (Or.inl (by omega)), ht, List.getElem?_set_self (by omega)]
      · intro m hm
        rw [run_real_frame hrun _ (by omega)]
        exact step_emits hs m hm
      · intro c hcm hac
        rcases List.mem_cons.mp hcm with hcm | hcm
        · omega
        · obtain ⟨jc, h1, h2, -⟩ := ih c (hi ▸ hcm)
          exact ⟨jc, h1, by omega⟩
      · intro bl hbl
        rw [hb] at hbl
        injection hbl with hbl
        subst hbl
        constructor
        · intro hlt'
          refine ⟨List.mem_cons_of_mem _ (starts_at_self hlt'), ?_⟩
          have := run_table_first hrun (by omega) hlen'
          rw [hi, hj] at this
          exact this
        · intro hge
          have := run_done hrun (by omega)
          rw [this, hj]
    · obtain ⟨ja, h1, h2, h3, h4, h5, h6⟩ := ih a (hi ▸ ha)
      refine ⟨ja, h1, by omega, h3, h4, ?_, ?_⟩
      · intro c hcm hac
        rcases List.mem_cons.mp hcm with hcm | hcm
        · have := (starts_at_bounds fake_ptr fake_len _ _ a ha).1
          omega
        · exact h5 c (hi ▸ hcm) hac
      · intro bl hbl
        obtain ⟨h7, h8⟩ := h6 bl hbl
        exact ⟨fun hlt' => ⟨List.mem_cons_of_mem _ (hi ▸ (h7 hlt').1), (h7 hlt').2⟩, h8⟩

/-- The result of `convert_opcodes` at an instruction start `a`: the table
holds the native offset `ja` of the instruction, the fixed bytes of its native
code stand in the final buffer (the second loop writes jump fields only), and
the table entry of the offset behind the instruction is `ja + nlen`. -/
theorem convert_layout {env : Env} {fake_ptr real_ptr : Nat → byte} {fake_len : Nat}
    {r : Converted} (h : convert_opcodes env fake_ptr real_ptr fake_len = .ok r) :
    ∀ a ∈ instr_starts fake_ptr fake_len, ∃ ja : Nat,
      r.addr_table[a]? = some (ja : Int) ∧ ja + nlen (fake_ptr a).val ≤ r.len ∧
      (∀ m, m < fixed_len (fake_ptr a).val →
        r.real_ptr (ja + m) = (emitted env fake_ptr a ja).getD m 0) ∧
      (∀ bl, blen (fake_ptr a).val = some bl →
        (a + bl < fake_len → a + bl ∈ instr_starts fake_ptr fake_len) ∧
        (a + bl ≤ fake_len →
          r.addr_table[a + bl]? = some ((ja + nlen (fake_ptr a).val : Nat) : Int))) := by
  obtain ⟨t, hrun, hlen, hreal, htab, hjl⟩ := convert_ok h
  have hl0 := init_table_length fake_len
  have hlay := run_layout hrun hl0
  have hc := run_counters hrun
  have hl : t.addr_table.length = fake_len + 1 := by rw [hc.2.2.2.2]; simp
  intro a ha
  have hba := (starts_at_bounds fake_ptr fake_len _ _ a ha).2
  obtain ⟨ja, h1, -, h3, h4, h5, h6⟩ := hlay a ha
  refine ⟨ja, by rw [htab, final_table_below hba, h1], by rw [hlen]; exact h3, ?_, ?_⟩
  · intro m hm
    have hfl := fixed_len_le (fake_ptr a).val
    rw [hreal, fill_jumps_frame, h4 m (by omega)]
    intro n hn
    rcases run_jumps_origin hrun hl0 n hn with hn0 | ⟨a', ha', ja', h7, h8⟩
    · exact absurd hn0 (List.not_mem_nil _)
    · have hm' := new_jumps_mem h8
      rcases Nat.lt_trichotomy a' a with hlt | heq | hgt
      · obtain ⟨ja'', h9, -, -, -, h10, -⟩ := hlay a' ha'
        obtain ⟨jb, h11, h12⟩ := h10 a ha hlt
        have e1 : ja'' = ja' := by
          have := h9.symm.trans h7
          exact_mod_cast Option.some.inj this
        have e2 : jb = ja := by
          have := h11.symm.trans h1
          exact_mod_cast Option.some.inj this
        right
        omega
      · subst heq
        have e1 : ja' = ja := by
          have := h7.symm.trans h1
          exact_mod_cast Option.some.inj this
        subst e1
        have := new_jumps_pos h8
        left
        omega
      · obtain ⟨jb, h11, h12⟩ := h5 a' ha' hgt
        have e2 : jb = ja' := by
          have := h11.symm.trans h7
          exact_mod_cast Option.some.inj this
        left
        omega
  · intro bl hbl
    obtain ⟨h7, h8⟩ := h6 bl hbl
    refine ⟨fun hlt => (h7 hlt).1, ?_⟩
    intro hle
    rcases Nat.lt_or_ge (a + bl) fake_len with hlt | hge
    · rw [htab, final_table_below hlt]
      exact (h7 hlt).2
    · have e : a + bl = fake_len := by omega
      rw [e, htab, List.getElem?_set_self (by omega), h8 hge]

/-- A stretch of memory that agrees with a list entry by entry is that list. -/
theorem bytes_at_eq (mem : Nat → byte) (j : Nat) (l : List byte)
    (h : ∀ m, m < l.length → mem (j + m) = l.getD m 0) : bytes_at mem j l.length = l := by
  apply List.ext_getElem
  · simp [bytes_at]
  · intro m h1 h2
    simp only [bytes_at, List.getElem_map, List.getElem_range]
    rw [h m h2, List.getD_eq_getElem _ _ h2]

/-- The fixed bytes of the native code of the instruction at a start `a`, as
they stand in the final buffer. -/
theorem convert_fixed_bytes {env : Env} {fake_ptr real_ptr : Nat → byte} {fake_len : Nat}
    {r : Converted} (h : convert_opcodes env fake_ptr real_ptr fake_len = .ok r)
    {a : Nat} (ha : a ∈ instr_starts fake_ptr fake_len) {ja : Nat}
    (hja : r.addr_table[a]? = some (ja : Int)) :
    bytes_at r.real_ptr ja (fixed_len (fake_ptr a).val) =
      (emitted env fake_ptr a ja).take (fixed_len (fake_ptr a).val) := by
  obtain ⟨ja', h1, -, h3, -⟩ := convert_layout h a ha
  have e : ja' = ja := by
    have := h1.symm.trans hja
    exact_mod_cast Option.some.inj this
  subst e
  have hfl := fixed_len_le (fake_ptr a).val
  have hl : ((emitted env fake_ptr a ja').take (fixed_len (fake_ptr a).val)).length
      = fixed_len (fake_ptr a).val := by
    rw [List.length_take, emitted_length]
    omega
  have := bytes_at_eq r.real_ptr ja' ((emitted env fake_ptr a ja').take (fixed_len (fake_ptr a).val))
    (by
      intro m hm
      rw [hl] at hm
      rw [h3 m hm]
      simp only [List.getD_eq_getElem?_getD, List.getElem?_take, hm, if_true])
  rw [hl] at this
  exact this

/-- Between an instruction start and the start that follows it there is no
other start. -/
theorem starts_gap (fake_ptr : Nat → byte) (fake_len : Nat) :
    ∀ (fuel i a c b : Nat), a ∈ starts_from fake_ptr fake_len fuel i →
      c ∈ starts_from fake_ptr fake_len fuel i → blen (fake_ptr a).val = some b →
      a < c → a + b ≤ c := by
  intro fuel
  induction fuel with
  | zero => intro i a c b ha; simp [starts_from] at ha
  | succ n ih =>
    intro i a c b ha hc hb hac
    simp only [starts_from] at ha hc
    by_cases hlt : i < fake_len
    · simp only [hlt, if_true] at ha hc
      cases hbi : blen (fake_ptr i).val with
      | none =>
        simp only [hbi, List.mem_singleton] at ha hc
        omega
      | some bi =>
        simp only [hbi] at ha hc
        rcases List.mem_cons.mp ha with ha | ha
        · subst ha
          rw [hbi] at hb
          injection hb with hb
          subst hb
          rcases List.mem_cons.mp hc with hc | hc
          · omega
          · exact (starts_at_bounds fake_ptr fake_len _ _ c hc).1
        · rcases List.mem_cons.mp hc with hc | hc
          · have := (starts_at_bounds fake_ptr fake_len _ _ a ha).1
            have := blen_pos hbi
            omega
          · exact ih _ a c b ha hc hb hac
    · simp [hlt] at ha

/-- The three bytes an iteration stores for `LOAD` or `STORE`. -/
theorem step_load_store (env : Env) (fake_ptr : Nat → byte) (fake_len : Nat) {s : State}
    (hop : (fake_ptr s.i).val = LOAD ∨ (fake_ptr s.i).val = STORE) :
    ∃ s', step env fake_ptr fake_len s = .ok s' ∧ s'.i = s.i + 2 ∧ s'.j = s.j + 3 ∧
      bytes_at s'.real_ptr s.j 3 =
        [if (fake_ptr s.i).val = LOAD then 0xFF else 0x8F,
         if (fake_ptr s.i).val = LOAD then 0x75 else 0x45,
         to_byte (-4 * (((fake_ptr (s.i + 1)).val : Int) + 1))] := by
  obtain ⟨s', hs⟩ := step_total env fake_ptr fake_len (s := s)
    (by rcases hop with h | h <;> simp [h, LOAD, STORE])
  obtain ⟨b, hb, hi, hj, -⟩ := step_ok hs
  have hem := step_emits hs
  refine ⟨s', hs, ?_, ?_, ?_⟩
  · rcases hop with h | h <;> simp only [LOAD, STORE] at h <;> simp [h, blen] at hb <;> omega
  · rcases hop with h | h <;> simp only [LOAD, STORE] at h <;> simp [h, nlen] at hj <;> omega
  · rcases hop with h | h <;> simp only [LOAD, STORE] at h
    · simp only [h, nlen, emitted] at hem
      have := bytes_at_eq s'.real_ptr s.j
        [0xFF, 0x75, to_byte (-4 * (((fake_ptr (s.i + 1)).val : Int) + 1))] hem
      simpa [h, LOAD] using this
    · simp only [h, nlen, emitted] at hem
      have := bytes_at_eq s'.real_ptr s.j
        [0x8F, 0x45, to_byte (-4 * (((fake_ptr (s.i + 1)).val : Int) + 1))] hem
      simpa [h, LOAD] using this

theorem puts_pos (l : List byte) : ∀ c : Cursor, (puts c l).pos = c.pos + l.length := by
  induction l with
  | nil => intro c; rfl
  | cons b l ih =>
    intro c
    simp only [puts, List.foldl_cons] at ih ⊢
    rw [ih (put c b)]
    simp only [put, List.length_cons]
    omega

theorem puts_mem (l : List byte) : ∀ (c : Cursor) (k : Nat),
    (puts c l).mem k =
      if c.pos ≤ k ∧ k < c.pos + l.length then l.getD (k - c.pos) 0 else c.mem k := by
  induction l with
  | nil =>
    intro c k
    rw [if_neg (by simp only [List.length_nil]; omega)]
    rfl
  | cons b l ih =>
    intro c k
    simp only [puts, List.foldl_cons] at ih ⊢
    rw [ih (put c b) k]
    simp only [put, memcpy, List.length_cons, List.length_nil]
    by_cases h1 : c.pos + 1 ≤ k ∧ k < c.pos + 1 + l.length
    · rw [if_pos h1, if_pos (by omega)]
      obtain ⟨m, hm⟩ : ∃ m, k - c.pos = m + 1 := ⟨k - c.pos - 1, by omega⟩
      rw [hm, List.getD_cons_succ]
      congr 1
      omega
    · rw [if_neg h1]
      by_cases h2 : k = c.pos
      · subst h2
        simp
      · rw [if_neg (by omega), if_neg (by omega)]

/-- The cursor after the prologue statements of `perform_conversion`. -/
theorem prologue_cursor (c : Cursor) :
    Nat.repeat (fun c => put (put c 0x6A) 0x00) NREGS (put (put (put c 0x55) 0x89) 0xE5)
      = puts c prologue := by
  simp [puts, prologue, NREGS, Nat.repeat, List.replicate]

/-- The cursor after the epilogue statements of `perform_conversion`. -/
theorem epilogue_cursor (c : Cursor) :
    put (put (Nat.repeat (fun c => put c 0x58) NREGS c) 0xC9) 0xC3 = puts c epilogue := by
  simp [puts, epilogue, NREGS, Nat.repeat, List.replicate]

/-- The body view `perform_conversion` hands to `convert_opcodes` is fresh
memory. -/
theorem body_view_zero :
    (fun k => (puts { mem := fun _ => 0, pos := 0 } prologue).mem
      ((puts { mem := fun _ => 0, pos := 0 } prologue).pos + k)) = zero_mem := by
  funext k
  rw [puts_mem, puts_pos, if_neg (by simp only [prologue]; omega)]
  rfl

/-- The function `perform_conversion` in terms of `puts`. -/
theorem perform_conversion_eq (env : Env) (fake : Nat → byte) (fake_len : Nat) :
    perform_conversion env fake fake_len =
      match convert_opcodes { env with real_addr := env.real_addr + 35 } fake zero_mem
          fake_len with
      | .error e => .error e
      | .ok r =>
        .ok (puts { mem := fun k => if k < 35 then
                      (puts { mem := fun _ => 0, pos := 0 } prologue).mem k
                      else r.real_ptr (k - 35),
                    pos := 35 + r.len } epilogue) := by
  unfold perform_conversion
  simp only [prologue_cursor, epilogue_cursor, body_view_zero]
  rfl

/-- A region whose bytes agree with a list entry by entry is that list. -/
theorem region_bytes_eq (c : Cursor) (l : List byte) (hl : l.length = c.pos)
    (h : ∀ k, k < c.pos → c.mem k = l.getD k 0) : region_bytes c = l := by
  apply List.ext_getElem
  · simp [region_bytes, hl]
  · intro m h1 h2
    simp only [region_bytes, List.getElem_map, List.getElem_range]
    rw [h m (by omega), List.getD_eq_getElem _ _ h2]

theorem bytes_at_length (mem : Nat → byte) (j n : Nat) : (bytes_at mem j n).length = n := by
  simp [bytes_at]

theorem bytes_at_getD (mem : Nat → byte) (j n m : Nat) (h : m < n) :
    (bytes_at mem j n).getD m 0 = mem (j + m) := by
  simp [bytes_at, List.getD_eq_getElem?_getD, h]

/-- What `perform_conversion` writes when `convert_opcodes` succeeds. -/
theorem perform_conversion_ok {env : Env} {fake : Nat → byte} {fake_len : Nat} {c : Cursor}
    (h : perform_conversion env fake fake_len = .ok c) :
    ∃ r, convert_opcodes { env with real_addr := env.real_addr + 35 } fake zero_mem
        fake_len = .ok r ∧
      c.pos = 53 + r.len ∧
      region_bytes c = prologue ++ bytes_at r.real_ptr 0 r.len ++ epilogue := by
  rw [perform_conversion_eq] at h
  split at h
  · exact absurd h (by simp)
  · rename_i r hr
    injection h with h
    subst h
    refine ⟨r, hr, ?_, ?_⟩
    · rw [puts_pos]
      simp only [epilogue, List.length_append, List.length_replicate, List.length_cons,
        List.length_nil]
      omega
    · have hpl : prologue.length = 35 := by decide
      have hel : epilogue.length = 18 := by decide
      apply region_bytes_eq
      · rw [puts_pos]
        simp only [List.length_append, bytes_at_length, hpl, hel]
      · intro k hk
        rw [puts_pos, hel] at hk
        rw [puts_mem, hel]
        simp only at hk ⊢
        by_cases h1 : k < 35
        · rw [if_neg (by omega), if_pos h1, puts_mem, if_pos (by simp only [hpl]; omega),
            List.append_assoc, List.getD_append _ _ _ _ (by omega)]
          rfl
        · by_cases h2 : k < 35 + r.len
          · rw [if_neg (by omega), if_neg h1, List.getD_append _ _ _ _
              (by simp only [List.length_append, bytes_at_length, hpl]; omega),
              List.getD_append_right _ _ _ _ (by omega), hpl,
              bytes_at_getD _ _ _ _ (by omega), Nat.zero_add]
          · rw [if_pos (by omega), List.getD_append_right _ _ _ _
              (by simp only [List.length_append, bytes_at_length, hpl]; omega)]
            simp only [List.length_append, bytes_at_length, hpl]

/-- The table entry at `fake_len` is the returned length. -/
theorem convert_sentinel {env : Env} {fake_ptr real_ptr : Nat → byte} {fake_len : Nat}
    {r : Converted} (h : convert_opcodes env fake_ptr real_ptr fake_len = .ok r) :
    r.addr_table[fake_len]? = some (r.len : Int) := by
  obtain ⟨t, hrun, hlen, hreal, htab, hjl⟩ := convert_ok h
  have hc := run_counters hrun
  have hl : t.addr_table.length = fake_len + 1 := by rw [hc.2.2.2.2]; simp
  rw [htab, hlen, List.getElem?_set_self (by omega)]

/-- The byte of the region at an offset inside the written part, read off the
list of written bytes. -/
theorem region_mem_of_bytes {c : Cursor} {l : List byte} (h : region_bytes c = l)
    (k : Nat) (hk : k < c.pos) : c.mem k = l.getD k 0 := by
  rw [← region_code_eq c k hk, region_code, h]

/-- When `convert_opcodes` succeeds so does `perform_conversion`, writing 53
bytes more than the body. -/
theorem perform_of_convert {env : Env} {fake : Nat → byte} {fake_len : Nat} {r : Converted}
    (h : convert_opcodes { env with real_addr := env.real_addr + 35 } fake zero_mem
      fake_len = .ok r) :
    ∃ c, perform_conversion env fake fake_len = .ok c ∧ c.pos = 53 + r.len := by
  rw [perform_conversion_eq, h]
  refine ⟨_, rfl, ?_⟩
  rw [puts_pos]
  have hel : epilogue.length = 18 := by decide
  rw [hel]
  simp only
  omega

/-- On a program of `PRINT` bytes the first loop emits twelve bytes for each
byte of bytecode. -/
theorem run_print_len {env : Env} {fake_len : Nat} {s t : State}
    (h : Run env (fun _ => 12) fake_len s t) (hs : s.i ≤ fake_len) :
    t.j = s.j + 12 * (fake_len - s.i) := by
  induction h with
  | done s hge =>
    omega
  | next s s' t hlt hstep _ ih =>
    obtain ⟨b, hb, hi, hj, -⟩ := step_ok hstep
    have hb1 : b = 1 := by
      have : blen 12 = some b := hb
      simp only [blen] at this
      exact (Option.some.inj this).symm
    have hn : nlen ((12 : byte)).val = 12 := rfl
    have hj' : s'.j = s.j + 12 := hj
    rw [ih (by omega), hj', hi, hb1]
    omega

theorem x86_step_push_ebp (env : Env) (code : Nat → byte) (ret : Nat) {c : Cpu}
    (h : (code c.eip).val = 0x55) :
    x86_step env code ret c = .continue (c.push c.ebp 1) := by
  unfold x86_step
  simp [h]

theorem x86_step_mov_ebp (env : Env) (code : Nat → byte) (ret : Nat) {c : Cpu}
    (h : (code c.eip).val = 0x89) (h1 : (code (c.eip + 1)).val = 0xE5) :
    x86_step env code ret c = .continue { c with ebp := c.esp, eip := c.eip + 2 } := by
  unfold x86_step
  simp [h, h1]

theorem x86_step_push_zero (env : Env) (code : Nat → byte) (ret : Nat) {c : Cpu}
    (h : (code c.eip).val = 0x6A) (h1 : (code (c.eip + 1)).val = 0) :
    x86_step env code ret c = .continue (c.push 0 2) := by
  have h1' : code (c.eip + 1) = 0 := Fin.ext h1
  unfold x86_step
  simp [h, h1', sint8, wrap32]

/-- The effect of `n` consecutive `push $0` instructions. -/
theorem run_pushes (env : Env) (code : Nat → byte) (ret : Nat) :
    ∀ (n : Nat) (c : Cpu),
      (∀ m, m < n → (code (c.eip + 2 * m)).val = 0x6A ∧ (code (c.eip + 2 * m + 1)).val = 0) →
      4 * n ≤ c.esp → c.esp < 4294967296 →
      ∃ c', x86_steps env code ret n c = some c' ∧ c'.eip = c.eip + 2 * n ∧
        c'.esp + 4 * n = c.esp ∧ c'.ebp = c.ebp ∧
        (∀ m, 1 ≤ m → m ≤ n → c'.stack (c.esp - 4 * m) = 0) ∧
        (∀ a, c.esp ≤ a → c'.stack a = c.stack a) := by
  intro n
  induction n with
  | zero =>
    intro c _ _ _
    exact ⟨c, rfl, rfl, rfl, rfl, fun m h1 h2 => by omega, fun a _ => rfl⟩
  | succ n ih =>
    intro c hcode hesp hlt
    have h0 := hcode 0 (by omega)
    simp only [Nat.mul_zero, Nat.add_zero] at h0
    have hstep := x86_step_push_zero env code ret h0.1 h0.2
    have hw : wrap32 ((c.esp : Int) - 4) = c.esp - 4 := by
      unfold wrap32
      omega
    obtain ⟨c', h1, h2, h3, h4, h5, h6⟩ := ih (c.push 0 2)
      (by
        intro m hm
        have := hcode (m + 1) (by omega)
        simp only [Cpu.push]
        rw [show c.eip + 2 + 2 * m = c.eip + 2 * (m + 1) by omega]
        exact this)
      (by simp only [Cpu.push, hw]; omega)
      (by simp only [Cpu.push, hw]; omega)
    simp only [Cpu.push, hw] at h2 h3 h4 h5 h6
    refine ⟨c', ?_, by omega, by omega, h4, ?_, ?_⟩
    · simp only [x86_steps, hstep]
      exact h1
    · intro m hm1 hm2
      rcases Nat.eq_or_lt_of_le hm1 with e | hgt
      · subst e
        rw [h6 (c.esp - 4 * 1) (by omega)]
        simp
      · have := h5 (m - 1) (by omega) (by omega)
        rw [show c.esp - 4 - 4 * (m - 1) = c.esp - 4 * m by omega] at this
        exact this
    · intro a ha
      rw [h6 a (by omega), if_neg (by omega)]

theorem x86_steps_succ (env : Env) (code : Nat → byte) (ret : Nat) (n : Nat) (c c' : Cpu)
    (h : x86_step env code ret c = .continue c') :
    x86_steps env code ret (n + 1) c = x86_steps env code ret n c' := by
  simp only [x86_steps, h]

/-- The prologue on the processor: after its 18 instructions the frame
pointer is 4 below the stack pointer at entry, sixteen zero double words lie
at `ebp - 4 .. ebp - 64`, and the next instruction is at offset 35. -/
theorem prologue_run (env : Env) (code : Nat → byte) (ret : Nat) (c0 : Cpu)
    (hcode : ∀ k, k < 35 → code k = prologue.getD k 0)
    (h0 : c0.eip = 0) (h1 : 72 ≤ c0.esp) (h2 : c0.esp < 4294967296) :
    ∃ c1, x86_steps env code ret 18 c0 = some c1 ∧ c1.eip = 35 ∧
      c1.ebp + 4 = c0.esp ∧ c1.esp + 64 = c1.ebp ∧
      (∀ m, 1 ≤ m → m ≤ 16 → c1.stack (c1.ebp - 4 * m) = 0) := by
  have hp : ∀ m, m < 16 →
      (prologue.getD (3 + 2 * m) 0).val = 0x6A ∧ (prologue.getD (3 + 2 * m + 1) 0).val = 0 := by
    decide
  have hw : wrap32 ((c0.esp : Int) - 4) = c0.esp - 4 := by
    unfold wrap32
    omega
  have s1 := x86_step_push_ebp env code ret (c := c0)
    (by rw [h0, hcode 0 (by omega)]; decide)
  have s2 := x86_step_mov_ebp env code ret (c := c0.push c0.ebp 1)
    (by simp only [Cpu.push, h0]; rw [hcode 1 (by omega)]; decide)
    (by simp only [Cpu.push, h0]; rw [hcode 2 (by omega)]; decide)
  obtain ⟨c1, e1, e2, e3, e4, e5, -⟩ := run_pushes env code ret 16
    { (c0.push c0.ebp 1) with ebp := (c0.push c0.ebp 1).esp, eip := (c0.push c0.ebp 1).eip + 2 }
    (by
      intro m hm
      simp only [Cpu.push, h0]
      rw [hcode (0 + 1 + 2 + 2 * m) (by omega), hcode (0 + 1 + 2 + 2 * m + 1) (by omega)]
      have := hp m hm
      rw [show 0 + 1 + 2 + 2 * m = 3 + 2 * m by omega]
      exact this)
    (by simp only [Cpu.push, hw]; omega)
    (by simp only [Cpu.push, hw]; omega)
  simp only [Cpu.push, hw, h0] at e2 e3 e4 e5
  refine ⟨c1, ?_, by omega, by omega, by omega, ?_⟩
  · rw [x86_steps_succ env code ret 17 c0 _ s1, x86_steps_succ env code ret 16 _ _ s2]
    exact e1
  · intro m hm1 hm2
    rw [e4]
    exact e5 m hm1 hm2

/-- The first 35 bytes of a region `perform_conversion` has filled are the
prologue. -/
theorem region_prologue {env : Env} {fake : Nat → byte} {fake_len : Nat} {c : Cursor}
    (h : perform_conversion env fake fake_len = .ok c) :
    ∀ k, k < 35 → region_code c k = prologue.getD k 0 := by
  obtain ⟨r, -, -, hbytes⟩ := perform_conversion_ok h
  have hpl : prologue.length = 35 := by decide
  intro k hk
  rw [region_code, hbytes, List.append_assoc, List.getD_append _ _ _ _ (by omega)]

/-- The displacement byte of a register index below 32, read as a signed
byte. -/
theorem disp_signed (r : Nat) (hr : r < 32) :
    sint8 (to_byte (-4 * ((r : Int) + 1))) = -4 * ((r : Int) + 1) := by
  have hv : (to_byte (-4 * ((r : Int) + 1))).val = ((-4 * ((r : Int) + 1)) % 256).toNat := rfl
  unfold sint8
  rw [hv]
  split <;> omega

/-- After the second loop every patch site holds the four bytes of its own
displacement, whatever the order of the list, provided the patch sites do not
overlap. -/
theorem fill_jumps_site_any (heap : Int → Int) (addr_table : List Int) :
    ∀ (l : List node) (real_ptr : Nat → byte),
      l.Pairwise (fun a b => a.real_pos + 4 ≤ b.real_pos ∨ b.real_pos + 4 ≤ a.real_pos) →
      ∀ n ∈ l, ∀ k, k < 4 →
        fill_jumps heap addr_table l real_ptr (n.real_pos + k) =
          (int_bytes (table_read heap addr_table n.fake_addr - ((n.real_pos : Int) + 4))).getD k 0 := by
  intro l
  induction l with
  | nil => intro real_ptr _ n hn; simp at hn
  | cons m rest ih =>
    intro real_ptr hp n hn k hk
    rw [List.pairwise_cons] at hp
    simp only [fill_jumps]
    rcases List.mem_cons.mp hn with hn | hn
    · subst hn
      rw [fill_jumps_frame heap addr_table rest _ _
        (fun x hx => by have := hp.1 x hx; omega)]
      exact memcpy_inside _ _ _ _ (by rw [int_bytes_length]; exact hk)
    · exact ih _ hp.2 n hn k hk

/-- The result of the second loop does not depend on the order of the list
when the patch sites do not overlap. -/
theorem fill_jumps_perm (heap : Int → Int) (addr_table : List Int) (l l' : List node)
    (real_ptr : Nat → byte)
    (hp : l.Pairwise (fun a b => a.real_pos + 4 ≤ b.real_pos ∨ b.real_pos + 4 ≤ a.real_pos))
    (hperm : l'.Perm l) :
    fill_jumps heap addr_table l' real_ptr = fill_jumps heap addr_table l real_ptr := by
  have hp' : l'.Pairwise
      (fun a b => a.real_pos + 4 ≤ b.real_pos ∨ b.real_pos + 4 ≤ a.real_pos) :=
    (hperm.pairwise_iff (fun {a b} h => Or.symm h)).mpr hp
  funext k
  by_cases h : ∃ n ∈ l, n.real_pos ≤ k ∧ k < n.real_pos + 4
  · obtain ⟨n, hn, h1, h2⟩ := h
    have e : k = n.real_pos + (k - n.real_pos) := by omega
    rw [e, fill_jumps_site_any heap addr_table l real_ptr hp n hn _ (by omega),
      fill_jumps_site_any heap addr_table l' real_ptr hp' n (hperm.mem_iff.mpr hn) _ (by omega)]
  · have hout : ∀ m ∈ l, k < m.real_pos ∨ m.real_pos + 4 ≤ k := by
      intro m hm
      by_contra hc
      exact h ⟨m, hm, by omega, by omega⟩
    rw [fill_jumps_frame heap addr_table l real_ptr k hout,
      fill_jumps_frame heap addr_table l' real_ptr k
        (fun m hm => hout m (hperm.mem_iff.mp hm))]

theorem writes_to_cons (m : node) (rest : List node) (k : Nat) :
    writes_to (m :: rest) k =
      writes_to rest k + (if m.real_pos ≤ k ∧ k < m.real_pos + 4 then 1 else 0) := by
  unfold writes_to
  rw [List.countP_cons]
  by_cases h : m.real_pos ≤ k ∧ k < m.real_pos + 4
  · rw [if_pos h, if_pos (decide_eq_true h)]
  · rw [if_neg h, if_neg (by rw [decide_eq_true_eq]; exact h)]

theorem writes_to_zero (l : List node) (k : Nat)
    (h : ∀ n ∈ l, k < n.real_pos ∨ n.real_pos + 4 ≤ k) : writes_to l k = 0 := by
  induction l with
  | nil => rfl
  | cons m rest ih =>
    rw [writes_to_cons, ih (fun n hn => h n (List.mem_cons_of_mem _ hn)),
      if_neg (by have := h m (List.mem_cons_self _ _); omega)]

/-- With patch sites that do not overlap, no byte is stored to twice, and the
bytes of a patch site are stored to once. -/
theorem writes_to_disjoint (l : List node)
    (hp : l.Pairwise (fun a b => a.real_pos + 4 ≤ b.real_pos ∨ b.real_pos + 4 ≤ a.real_pos)) :
    (∀ k, writes_to l k ≤ 1) ∧
    (∀ n ∈ l, ∀ k, n.real_pos ≤ k → k < n.real_pos + 4 → writes_to l k = 1) := by
  induction l with
  | nil => exact ⟨fun k => Nat.zero_le _, fun n hn => absurd hn (List.not_mem_nil _)⟩
  | cons m rest ih =>
    rw [List.pairwise_cons] at hp
    obtain ⟨ih1, ih2⟩ := ih hp.2
    have hzero : ∀ k, m.real_pos ≤ k → k < m.real_pos + 4 → writes_to rest k = 0 := by
      intro k h1 h2
      apply writes_to_zero
      intro x hx
      have := hp.1 x hx
      omega
    constructor
    · intro k
      rw [writes_to_cons]
      by_cases hk : m.real_pos ≤ k ∧ k < m.real_pos + 4
      · rw [if_pos hk, hzero k hk.1 hk.2]
      · rw [if_neg hk]
        exact ih1 k
    · intro n hn k h1 h2
      rw [writes_to_cons]
      rcases List.mem_cons.mp hn with hn | hn
      · subst hn
        rw [if_pos ⟨h1, h2⟩, hzero k h1 h2]
      · have hd := hp.1 n hn
        rw [if_neg (by omega), ih2 n hn k h1 h2]

/-- The reads of one iteration lie inside the instruction: from its start up
to (not including) the start plus its bytecode length; for an unknown opcode
only the opcode byte is read. -/
theorem step_reads_bounds {fake_ptr : Nat → byte} {i k : Nat} (h : k ∈ step_reads fake_ptr i) :
    i ≤ k ∧ (∀ b, blen (fake_ptr i).val = some b → k < i + b) ∧
      (blen (fake_ptr i).val = none → k = i) := by
  unfold step_reads at h
  split at h <;> rename_i hop <;> simp only [List.mem_cons, List.mem_singleton,
    List.not_mem_nil, or_false] at h
  all_goals first
    | (simp only [hop, blen]
       refine ⟨by omega, ?_, ?_⟩
       · intro b hb
         injection hb with hb
         omega
       · intro hb
         exact absurd hb (by simp))
    | skip
  refine ⟨by omega, ?_, fun _ => h⟩
  intro b hb
  have := blen_pos hb
  omega

/-- When every instruction lies inside the program, the first loop reads
only inside the program. -/
theorem pass_one_reads_bounds {env : Env} {fake_ptr : Nat → byte} {fake_len : Nat} :
    ∀ (fuel : Nat) (s : State),
      (∀ a ∈ starts_at fake_ptr fake_len s.i, ∀ b, blen (fake_ptr a).val = some b →
        a + b ≤ fake_len) →
      ∀ k ∈ pass_one_reads env fake_ptr fake_len fuel s, k < fake_len := by
  intro fuel
  induction fuel with
  | zero => intro s _ k hk; simp [pass_one_reads] at hk
  | succ n ih =>
    intro s hall k hk
    simp only [pass_one_reads] at hk
    by_cases hlt : s.i < fake_len
    · rw [if_pos hlt] at hk
      rcases List.mem_append.mp hk with hk | hk
      · obtain ⟨h1, h2, h3⟩ := step_reads_bounds hk
        cases hb : blen (fake_ptr s.i).val with
        | none =>
          rw [h3 hb]
          exact hlt
        | some b =>
          have := hall s.i (starts_at_self hlt) b hb
          have := h2 b hb
          omega
      · cases hs : step env fake_ptr fake_len s with
        | error e => simp [hs] at hk
        | ok s' =>
          simp only [hs] at hk
          obtain ⟨b, hb, hi, -⟩ := step_ok hs
          apply ih s' _ k hk
          intro a ha
          apply hall
          rw [starts_at_some hlt hb]
          exact List.mem_cons_of_mem _ (hi ▸ ha)
    · rw [if_neg hlt] at hk
      simp at hk

/-- When every instruction lies inside the program, the first loop leaves
with `i` equal to the program length. -/
theorem run_cursor_exact {env : Env} {fake_ptr : Nat → byte} {fake_len : Nat} {s t : State}
    (h : Run env fake_ptr fake_len s t) (hs : s.i ≤ fake_len)
    (hall : ∀ a ∈ starts_at fake_ptr fake_len s.i, ∀ b, blen (fake_ptr a).val = some b →
      a + b ≤ fake_len) :
    t.i = fake_len := by
  induction h with
  | done s hge => omega
  | next s s' t hlt hstep _ ih =>
    obtain ⟨b, hb, hi, -⟩ := step_ok hstep
    have := hall s.i (starts_at_self hlt) b hb
    apply ih (by omega)
    intro a ha
    apply hall
    rw [starts_at_some hlt hb]
    exact List.mem_cons_of_mem _ (hi ▸ ha)

/-- The second loop is the sequence of its stores: `fill_jumps` performs
exactly one 4-byte `memcpy` for each list entry, in list order, and nothing
else. -/
theorem fill_jumps_eq_stores (heap : Int → Int) (addr_table : List Int) :
    ∀ (l : List node) (real_ptr : Nat → byte),
      fill_jumps heap addr_table l real_ptr =
        apply_stores (pass_two_stores heap addr_table l) real_ptr := by
  intro l
  induction l with
  | nil => intro real_ptr; rfl
  | cons temp next ih =>
    intro real_ptr
    simp only [fill_jumps, pass_two_stores, apply_stores, List.map_cons, List.foldl_cons]
    exact ih _

/-- The stores of the second loop that write a byte are counted by
`writes_to`: every store has four bytes. -/
theorem stores_covering_eq (heap : Int → Int) (addr_table : List Int) (l : List node)
    (k : Nat) : stores_covering (pass_two_stores heap addr_table l) k = writes_to l k := by
  induction l with
  | nil => rfl
  | cons m rest ih =>
    rw [writes_to_cons, ← ih]
    simp only [stores_covering, pass_two_stores, List.map_cons, List.countP_cons,
      int_bytes_length]
    by_cases h : m.real_pos ≤ k ∧ k < m.real_pos + 4
    · rw [if_pos h, if_pos (decide_eq_true h)]
    · rw [if_neg h, if_neg (by rw [decide_eq_true_eq]; exact h)]

/-- Every store of the second loop has four bytes and goes to the patch site
of its list entry. -/
theorem pass_two_stores_shape (heap : Int → Int) (addr_table : List Int) (l : List node) :
    (pass_two_stores heap addr_table l).map (fun st => (st.1, st.2.length)) =
      l.map (fun n => (n.real_pos, 4)) := by
  simp only [pass_two_stores, List.map_map]
  apply List.map_congr_left
  intro n _
  simp only [Function.comp, int_bytes_length]

end Navm

/-! ## The properties -/

namespace Navm

set_option maxRecDepth 100000

/-- C1, the failing input. The program `PUSH -6; PUSH 3; DIV; PRINT; STOP` is
well formed (13 bytes, known opcodes at its instruction starts 0, 5, 10, 11,
12, no register, no jump, a stack that `PRINT` empties again). The reference
interpreter prints `-2`. The translation also returns normally, but it prints
`1431655763`: the code emitted for `DIV` clears `edx` before `idiv`, so the
dividend is the unsigned reading of `-6`. -/
theorem native_differs_from_reference :
    instr_starts (program sample_div) 13 = [0, 5, 10, 11, 12] ∧
    (∀ i ∈ instr_starts (program sample_div) 13, (program sample_div i).val ≤ 0x0d) ∧
    reference (program sample_div) 13 100 = .returned [-2] ∧
    native env_mmap (program sample_div) 13 100 = .ok (.returned [1431655763]) :=
  ⟨by decide, by decide, by decide, by rfl⟩

/-- C2. Relocation resolution: when `convert_opcodes` succeeds, every pending
jump `(real_pos, fake_addr)` collected by the first loop whose target is an
index of the table (`0 ≤ fake_addr ≤ fake_len`) has, after the second loop, at
`real_pos .. real_pos + 3` the four bytes whose little-endian value is
`addr_table[fake_addr] - (real_pos + 4)` modulo `2^32`. -/
theorem relocation_resolved (env : Env) (fake_ptr real_ptr : Nat → byte) (fake_len : Nat)
    (r : Converted) (h : convert_opcodes env fake_ptr real_ptr fake_len = .ok r)
    (n : node) (hn : n ∈ r.jump_locations)
    (hv : 0 ≤ n.fake_addr ∧ n.fake_addr ≤ fake_len) :
    ∃ v : Int, r.addr_table[n.fake_addr.toNat]? = some v ∧
      ((r.real_ptr n.real_pos).val : Int) + 256 * (r.real_ptr (n.real_pos + 1)).val
        + 65536 * (r.real_ptr (n.real_pos + 2)).val
        + 16777216 * (r.real_ptr (n.real_pos + 3)).val
        = (v - ((n.real_pos : Int) + 4)) % 4294967296 := by
  obtain ⟨t, hrun, hlen, hreal, htab, hjl⟩ := convert_ok h
  obtain ⟨N, hN, -, hpw⟩ := run_jumps hrun
  simp only [List.append_nil] at hN
  have hc := run_counters hrun
  have hl : r.addr_table.length = fake_len + 1 := by
    rw [htab, List.length_set, hc.2.2.2.2]; simp
  have hlt : n.fake_addr.toNat < r.addr_table.length := by omega
  refine ⟨r.addr_table[n.fake_addr.toNat], List.getElem?_eq_getElem hlt, ?_⟩
  have hread : table_read env.heap r.addr_table n.fake_addr = r.addr_table[n.fake_addr.toNat] := by
    unfold table_read
    rw [if_pos ⟨hv.1, by omega⟩, List.getD_eq_getElem _ _ hlt]
  have hsite := fill_jumps_site env.heap r.addr_table r.jump_locations t.real_ptr
    (by rw [hjl, hN]; exact hpw) n hn
  have hreal' : r.real_ptr = fill_jumps env.heap r.addr_table r.jump_locations t.real_ptr := by
    rw [hreal, htab, hjl]
  rw [← hreal'] at hsite
  have h0 := hsite 0 (by omega)
  have h1 := hsite 1 (by omega)
  have h2 := hsite 2 (by omega)
  have h3 := hsite 3 (by omega)
  rw [Nat.add_zero] at h0
  rw [h0, h1, h2, h3, hread]
  exact int_bytes_value _

/-- Witness for `relocation_resolved`: the `JZ 21` of `sample_jz`, patch site
18, target 21. -/
theorem relocation_resolved_witness :
    ∃ r, convert_opcodes env0 (program sample_jz) zero_mem 22 = .ok r ∧
      ({ real_pos := 18, fake_addr := 21 } : node) ∈ r.jump_locations ∧
      ((0 : Int) ≤ 21 ∧ (21 : Int) ≤ (22 : Nat)) ∧
      ∃ v : Int, r.addr_table[21]? = some v ∧
        ((r.real_ptr 18).val : Int) + 256 * (r.real_ptr (18 + 1)).val
          + 65536 * (r.real_ptr (18 + 2)).val + 16777216 * (r.real_ptr (18 + 3)).val
          = (v - (((18 : Nat) : Int) + 4)) % 4294967296 :=
  ⟨_, rfl, by decide, by decide,
    relocation_resolved env0 (program sample_jz) zero_mem 22 _ rfl
      { real_pos := 18, fake_addr := 21 } (by decide) (by decide)⟩

/-- C3. When `convert_opcodes` succeeds, the table has exactly `fake_len + 1`
entries and its entry at index `fake_len` is the returned native length. -/
theorem offset_table_size (env : Env) (fake_ptr real_ptr : Nat → byte) (fake_len : Nat)
    (r : Converted) (h : convert_opcodes env fake_ptr real_ptr fake_len = .ok r) :
    r.addr_table.length = fake_len + 1 ∧ r.addr_table[fake_len]? = some (r.len : Int) := by
  obtain ⟨t, hrun, hlen, hreal, htab, hjl⟩ := convert_ok h
  have hc := run_counters hrun
  have hl : t.addr_table.length = fake_len + 1 := by rw [hc.2.2.2.2]; simp
  constructor
  · rw [htab, List.length_set, hl]
  · rw [htab, hlen, List.getElem?_set_self (by omega)]

/-- Witness for `offset_table_size` on `sample_add`. -/
theorem offset_table_size_witness :
    ∃ r, convert_opcodes env0 (program sample_add) zero_mem 13 = .ok r ∧
      r.addr_table.length = 13 + 1 ∧ r.addr_table[13]? = some (r.len : Int) :=
  ⟨_, rfl, offset_table_size env0 (program sample_add) zero_mem 13 _ rfl⟩

/-- C4, counterexample. For the 6-byte program `NOP; PUSH 0` the table is
`[0, 1, 0, 0, 0, 0, 6]`: offsets 2..5 hold operand bytes, their entries keep
the zero of `calloc`, and the entry at offset 1 is larger than the entry at
offset 2. -/
theorem offset_table_not_increasing :
    ∃ r, convert_opcodes env0 (program [0, 1, 0, 0, 0, 0]) zero_mem 6 = .ok r ∧
      r.addr_table = [0, 1, 0, 0, 0, 0, 6] ∧
      (1 < 2 ∧ 2 ≤ 6 ∧ ¬ (r.addr_table.getD 1 0 < r.addr_table.getD 2 0)) :=
  ⟨_, rfl, by decide, by decide⟩

/-- C4, as amended. When `convert_opcodes` succeeds, the table is strictly
increasing along the instruction starts and the end sentinel: for an
instruction start `a` and a later offset `b` that is an instruction start or
`fake_len`, the entry at `a` is smaller than the entry at `b`. -/
theorem offset_table_increasing_on_starts (env : Env) (fake_ptr real_ptr : Nat → byte)
    (fake_len : Nat) (r : Converted)
    (h : convert_opcodes env fake_ptr real_ptr fake_len = .ok r)
    (a b : Nat) (ha : a ∈ instr_starts fake_ptr fake_len)
    (hb : b ∈ instr_starts fake_ptr fake_len ∨ b = fake_len) (hab : a < b) :
    ∃ ja jb : Int, r.addr_table[a]? = some ja ∧ r.addr_table[b]? = some jb ∧ ja < jb := by
  obtain ⟨t, hrun, hlen, hreal, htab, hjl⟩ := convert_ok h
  have hst := run_table_starts hrun (init_table_length fake_len)
  have hc := run_counters hrun
  have hl : t.addr_table.length = fake_len + 1 := by rw [hc.2.2.2.2]; simp
  have hba := (starts_at_bounds fake_ptr fake_len _ _ a ha).2
  obtain ⟨ja, h1, -, h3, -, -, h6⟩ := hst a ha
  rcases hb with hb | hb
  · obtain ⟨jb, h7, h8⟩ := h6 b hb hab
    have hbb := (starts_at_bounds fake_ptr fake_len _ _ b hb).2
    exact ⟨ja, jb, by rw [htab, final_table_below hba, h1],
      by rw [htab, final_table_below hbb, h7], by exact_mod_cast h8⟩
  · subst hb
    exact ⟨ja, t.j, by rw [htab, final_table_below hba, h1],
      by rw [htab, List.getElem?_set_self (by omega)], by exact_mod_cast h3⟩

/-- Witness for `offset_table_increasing_on_starts` on `sample_add`: the
starts 5 and 10. -/
theorem offset_table_increasing_on_starts_witness :
    ∃ r, convert_opcodes env0 (program sample_add) zero_mem 13 = .ok r ∧
      5 ∈ instr_starts (program sample_add) 13 ∧
      (10 ∈ instr_starts (program sample_add) 13 ∨ 10 = 13) ∧ 5 < 10 ∧
      ∃ ja jb : Int, r.addr_table[5]? = some ja ∧ r.addr_table[10]? = some jb ∧ ja < jb :=
  ⟨_, rfl, by decide, by decide, by decide,
    offset_table_increasing_on_starts env0 (program sample_add) zero_mem 13 _ rfl 5 10
      (by decide) (by decide) (by decide)⟩

/-- C5. Expansion bound: when `convert_opcodes` succeeds, the returned native
length is at most `12 * fake_len`; and no single instruction emits more than
12 bytes: one iteration of the first loop advances `j` by at most 12 and
leaves the destination unchanged outside `j .. j + 11`. -/
theorem expansion_bound (env : Env) (fake_ptr real_ptr : Nat → byte) (fake_len : Nat)
    (r : Converted) (h : convert_opcodes env fake_ptr real_ptr fake_len = .ok r) :
    r.len ≤ MAX_SCALE * fake_len ∧
    ∀ s s' : State, step env fake_ptr fake_len s = .ok s' →
      s.j ≤ s'.j ∧ s'.j ≤ s.j + MAX_SCALE ∧
      ∀ k, k < s.j ∨ s.j + MAX_SCALE ≤ k → s'.real_ptr k = s.real_ptr k := by
  obtain ⟨t, hrun, hlen, -⟩ := convert_ok h
  have hc := run_counters hrun
  simp only [MAX_SCALE]
  constructor
  · have := hc.2.2.2.1
    simp only at this
    omega
  · intro s s' hs
    obtain ⟨b, hb, hi, hj, -⟩ := step_ok hs
    have hn := nlen_le (fake_ptr s.i).val
    refine ⟨by omega, by omega, ?_⟩
    intro k hk
    exact step_real_frame hs k (by omega)

/-- Witness for `expansion_bound` on `sample_add`. -/
theorem expansion_bound_witness :
    ∃ r, convert_opcodes env0 (program sample_add) zero_mem 13 = .ok r ∧
      r.len ≤ MAX_SCALE * 13 ∧
      ∀ s s' : State, step env0 (program sample_add) 13 s = .ok s' →
        s.j ≤ s'.j ∧ s'.j ≤ s.j + MAX_SCALE ∧
        ∀ k, k < s.j ∨ s.j + MAX_SCALE ≤ k → s'.real_ptr k = s.real_ptr k :=
  ⟨_, rfl, expansion_bound env0 (program sample_add) zero_mem 13 _ rfl⟩

/-- C6, the failing input. For the program `JMP` with operand bytes `00 80`
the operand read as an unsigned 16-bit little-endian number is 32768, but the
one pending jump the first loop records has target `-32768`: `jmp_addr` and
`fake_addr` are `short`. The patch site, native offset 1, is as claimed. -/
theorem jump_target_signed :
    ∃ r, convert_opcodes env0 (program [5, 0, 128]) zero_mem 3 = .ok r ∧
      r.jump_locations = [{ real_pos := 1, fake_addr := -32768 }] ∧
      ((program [5, 0, 128] 1).val + 256 * (program [5, 0, 128] 2).val = 32768) :=
  ⟨_, rfl, by decide, by decide⟩

/-- C7, the failing input. For the program of 32768 `STOP` bytes (within the
loader's limit of 65536) the translation succeeds and every pending jump it
records, the one of the first `STOP` at patch site 1 among them, has target
`-32768`, not `fake_len = 32768`: the assignment to the `short` field
`fake_addr` wraps. -/
theorem stop_target_wraps :
    ∃ r, convert_opcodes env0 (fun _ => 13) zero_mem 32768 = .ok r ∧
      ({ real_pos := 1, fake_addr := -32768 } : node) ∈ r.jump_locations ∧
      ∀ n ∈ r.jump_locations, n.fake_addr = -32768 := by
  obtain ⟨t, ht⟩ := run_exists env0 (fun _ => 13) 32768
    32768 { i := 0, j := 0, real_ptr := zero_mem,
            addr_table := List.replicate (32768 + 1) 0, jump_locations := [] }
    (Nat.sub_le _ _) (fun a _ => show ((13 : byte).val ≤ 13) by decide)
  refine ⟨_, convert_of_run ht, ?_, ?_⟩
  · exact run_first ht (by decide) _ (by decide)
  · intro n hn
    rcases run_jumps_origin ht (List.length_replicate _ _) n hn with h1 | ⟨a, -, ja, -, h3⟩
    · exact absurd h1 (List.not_mem_nil _)
    · have h4 : n = { real_pos := ja + 1, fake_addr := -32768 } := by
        simpa [new_jumps, to_short] using h3
      rw [h4]

/-- C8, counterexample. The 3-byte program `JMP 16` translates without error;
its one pending jump has target 16, which is neither an instruction start of
the program (the only one is 0) nor its length 3, and is no index of the
4-entry table at all. -/
theorem relocation_target_unchecked :
    ∃ r, convert_opcodes env0 (program [5, 16, 0]) zero_mem 3 = .ok r ∧
      r.jump_locations = [{ real_pos := 1, fake_addr := 16 }] ∧
      instr_starts (program [5, 16, 0]) 3 = [0] ∧
      (16 : Int) ≠ 3 ∧ r.addr_table.length = 4 :=
  ⟨_, rfl, by decide, by decide, by decide, by decide⟩

/-- C8, as amended. For a program of at most 32767 bytes that
`convert_opcodes` translates without error and in which the address operand
of every `JMP`, `JZ` and `JNZ` at an instruction start is an instruction start
or the program length, the target of every pending jump is an instruction
start or the program length. -/
theorem relocation_targets_valid (env : Env) (fake_ptr real_ptr : Nat → byte)
    (fake_len : Nat) (r : Converted)
    (h : convert_opcodes env fake_ptr real_ptr fake_len = .ok r)
    (hlen : fake_len ≤ 32767)
    (hops : ∀ a ∈ instr_starts fake_ptr fake_len,
      (fake_ptr a).val = JMP ∨ (fake_ptr a).val = JZ ∨ (fake_ptr a).val = JNZ →
      (∃ b ∈ instr_starts fake_ptr fake_len, jmp_operand fake_ptr a = (b : Int)) ∨
        jmp_operand fake_ptr a = (fake_len : Int)) :
    ∀ n ∈ r.jump_locations,
      (∃ b ∈ instr_starts fake_ptr fake_len, n.fake_addr = (b : Int)) ∨
        n.fake_addr = (fake_len : Int) := by
  obtain ⟨t, hrun, -, -, -, hjl⟩ := convert_ok h
  intro n hn
  rw [hjl] at hn
  rcases run_jumps_origin hrun (List.length_replicate _ _) n hn with h1 | ⟨a, ha, ja, -, h3⟩
  · exact absurd h1 (List.not_mem_nil _)
  · rcases new_jumps_target h3 with ⟨-, h5⟩ | ⟨h4, h5⟩
    · right
      rw [h5]
      unfold to_short
      omega
    · rcases hops a ha h4 with ⟨b, hb, hbe⟩ | hbe
      · left
        have hbb := (starts_at_bounds fake_ptr fake_len _ _ b hb).2
        refine ⟨b, hb, ?_⟩
        rw [h5, hbe]
        unfold to_short
        omega
      · right
        rw [h5, hbe]
        unfold to_short
        omega

/-- Witness for `relocation_targets_valid` on `sample_jz`. -/
theorem relocation_targets_valid_witness :
    ∃ r, convert_opcodes env0 (program sample_jz) zero_mem 22 = .ok r ∧
      22 ≤ 32767 ∧
      (∀ a ∈ instr_starts (program sample_jz) 22,
        (program sample_jz a).val = JMP ∨ (program sample_jz a).val = JZ ∨
          (program sample_jz a).val = JNZ →
        (∃ b ∈ instr_starts (program sample_jz) 22,
          jmp_operand (program sample_jz) a = (b : Int)) ∨
          jmp_operand (program sample_jz) a = ((22 : Nat) : Int)) ∧
      ∀ n ∈ r.jump_locations,
        (∃ b ∈ instr_starts (program sample_jz) 22, n.fake_addr = (b : Int)) ∨
          n.fake_addr = ((22 : Nat) : Int) :=
  ⟨_, rfl, by decide, by decide,
    relocation_targets_valid env0 (program sample_jz) zero_mem 22 _ rfl (by decide)
      (by decide)⟩

/-- C9. `convert_opcodes` exits with the invalid-instruction error exactly
when some instruction start (an offset reached by decoding from 0 and
advancing by the bytecode length of each opcode) inside the program holds a
byte greater than `0x0d`; bytes elsewhere play no part. -/
theorem invalid_instruction_iff (env : Env) (fake_ptr real_ptr : Nat → byte)
    (fake_len : Nat) :
    (∃ b, convert_opcodes env fake_ptr real_ptr fake_len = .error (.invalid_instruction b)) ↔
      ∃ i ∈ instr_starts fake_ptr fake_len, i < fake_len ∧ 0x0d < (fake_ptr i).val := by
  constructor
  · rintro ⟨b, hb⟩
    obtain ⟨a, ha, h1, -⟩ := pass_one_error _ _ _ (convert_error hb)
    exact ⟨a, ha, (starts_at_bounds fake_ptr fake_len _ _ a ha).2, h1⟩
  · rintro ⟨i, hi, -, hop⟩
    cases hc : convert_opcodes env fake_ptr real_ptr fake_len with
    | error e =>
      cases e with
      | invalid_instruction b => exact ⟨b, rfl⟩
    | ok r =>
      obtain ⟨t, hrun, -⟩ := convert_ok hc
      obtain ⟨_, -, -, -, h4, -⟩ := run_table_starts hrun (List.length_replicate _ _) i hi
      omega

/-- C10, counterexample. The programs `ff` and `NOP; ff` hold their unknown
opcode at different offsets (0 and 1), yet `convert_opcodes` reports the same
failure for both, and the text written to `stderr` names the byte only. -/
theorem error_report_omits_offset :
    convert_opcodes env0 (program [255]) zero_mem 1 = .error (.invalid_instruction 255) ∧
    convert_opcodes env0 (program [0, 255]) zero_mem 2 = .error (.invalid_instruction 255) ∧
    instr_starts (program [255]) 1 = [0] ∧
    instr_starts (program [0, 255]) 2 = [0, 1] ∧
    (Failure.invalid_instruction 255).stderr =
      "execute_program: invalid instruction: ff\n\taborting program!\n" :=
  ⟨rfl, rfl, by decide, by decide, by decide⟩

/-- C10, as amended. When `convert_opcodes` fails, the error it reports
carries the offending byte value and nothing else: the byte held at the first
instruction start whose opcode is unknown. -/
theorem error_reports_byte (env : Env) (fake_ptr real_ptr : Nat → byte)
    (fake_len : Nat) (e : Failure)
    (h : convert_opcodes env fake_ptr real_ptr fake_len = .error e) :
    ∃ i ∈ instr_starts fake_ptr fake_len, i < fake_len ∧ 0x0d < (fake_ptr i).val ∧
      (∀ k ∈ instr_starts fake_ptr fake_len, k < i → (fake_ptr k).val ≤ 0x0d) ∧
      e = .invalid_instruction (fake_ptr i) := by
  obtain ⟨a, ha, h1, h2, h3⟩ := pass_one_error _ _ _ (convert_error h)
  exact ⟨a, ha, (starts_at_bounds fake_ptr fake_len _ _ a ha).2, h1, h3, h2⟩

/-- Witness for `error_reports_byte`: the program `NOP; ff`. -/
theorem error_reports_byte_witness :
    convert_opcodes env0 (program [0, 255]) zero_mem 2 = .error (.invalid_instruction 255) ∧
    ∃ i ∈ instr_starts (program [0, 255]) 2, i < 2 ∧ 0x0d < (program [0, 255] i).val ∧
      (∀ k ∈ instr_starts (program [0, 255]) 2, k < i → (program [0, 255] k).val ≤ 0x0d) ∧
      Failure.invalid_instruction 255 = .invalid_instruction (program [0, 255] i) :=
  ⟨rfl, error_reports_byte env0 (program [0, 255]) zero_mem 2 _ rfl⟩

/-- C11. Register addressing: for every register index `r` in 0..15, an
iteration on `LOAD r` stores `FF 75 d` and one on `STORE r` stores `8F 45 d`
with the same byte `d`, whose signed reading is `-4 * (r + 1)`; different
indices below 16 give different bytes, so the sixteen displacements are
`-4, -8, ..., -64`. On the processor the prologue of any region
`perform_conversion` has filled leaves, after its 18 instructions, `ebp` 4 below
the stack pointer at entry, `esp` 64 below `ebp`, and at the address
`ebp + d = ebp - 4 * (r + 1)` that `LOAD r` and `STORE r` use one of the
sixteen zero double words it has pushed. -/
theorem register_addressing (env : Env) (fake : Nat → byte) (fake_len : Nat) (c : Cursor)
    (h : perform_conversion env fake fake_len = .ok c)
    (ret : Nat) (c0 : Cpu) (h0 : c0.eip = 0) (h1 : 72 ≤ c0.esp) (h2 : c0.esp < 4294967296)
    (r : Nat) (hr : r < 16) :
    (∀ (fake_ptr : Nat → byte) (len : Nat) (s : State),
      (fake_ptr s.i).val = LOAD ∨ (fake_ptr s.i).val = STORE →
      (fake_ptr (s.i + 1)).val = r →
      ∃ s', step env fake_ptr len s = .ok s' ∧
        bytes_at s'.real_ptr s.j 3 =
          [if (fake_ptr s.i).val = LOAD then 0xFF else 0x8F,
           if (fake_ptr s.i).val = LOAD then 0x75 else 0x45,
           to_byte (-4 * ((r : Int) + 1))]) ∧
    sint8 (to_byte (-4 * ((r : Int) + 1))) = -4 * ((r : Int) + 1) ∧
    (∀ r' : Nat, r' < 16 → to_byte (-4 * ((r' : Int) + 1)) = to_byte (-4 * ((r : Int) + 1)) →
      r' = r) ∧
    ∃ c1, x86_steps env (region_code c) ret 18 c0 = some c1 ∧ c1.eip = 35 ∧
      c1.ebp + 4 = c0.esp ∧ c1.esp + 64 = c1.ebp ∧
      wrap32 ((c1.ebp : Int) + sint8 (to_byte (-4 * ((r : Int) + 1)))) + 4 * (r + 1) = c1.ebp ∧
      c1.stack (wrap32 ((c1.ebp : Int) + sint8 (to_byte (-4 * ((r : Int) + 1))))) = 0 := by
  have hs := disp_signed r (by omega)
  refine ⟨?_, hs, ?_, ?_⟩
  · intro fake_ptr len s hop hopr
    obtain ⟨s', e1, -, -, e2⟩ := step_load_store env fake_ptr len hop
    rw [hopr] at e2
    exact ⟨s', e1, e2⟩
  · intro r' hr' he
    have := congrArg sint8 he
    rw [hs, disp_signed r' (by omega)] at this
    omega
  · obtain ⟨c1, e1, e2, e3, e4, e5⟩ := prologue_run env (region_code c) ret c0
      (region_prologue h) h0 h1 h2
    have hw : wrap32 ((c1.ebp : Int) + sint8 (to_byte (-4 * ((r : Int) + 1))))
        = c1.ebp - 4 * (r + 1) := by
      rw [hs]
      unfold wrap32
      omega
    refine ⟨c1, e1, e2, e3, e4, ?_, ?_⟩
    · rw [hw]
      omega
    · rw [hw]
      exact e5 (r + 1) (by omega) (by omega)

/-- Witness for `register_addressing`: the region of `sample_add`, entered as
`main` enters it, and register 3. -/
theorem register_addressing_witness :
    ∃ c, perform_conversion env_mmap (program sample_add) 13 = .ok c ∧
      (0 : Nat) = 0 ∧ 72 ≤ 0xffffd000 ∧ 0xffffd000 < 4294967296 ∧ 3 < 16 ∧
      sint8 (to_byte (-4 * (((3 : Nat) : Int) + 1))) = -4 * (((3 : Nat) : Int) + 1) ∧
      ∃ c1, x86_steps env_mmap (region_code c) 0xffffd000 18
          { eax := 0, ecx := 0, edx := 0, ebp := 0xffffd040, esp := 0xffffd000, eip := 0,
            zf := false, stack := fun _ => 0, out := [] } = some c1 ∧
        c1.eip = 35 ∧ c1.ebp + 4 = 0xffffd000 ∧ c1.esp + 64 = c1.ebp ∧
        wrap32 ((c1.ebp : Int) + sint8 (to_byte (-4 * (((3 : Nat) : Int) + 1))))
          + 4 * (3 + 1) = c1.ebp ∧
        c1.stack (wrap32 ((c1.ebp : Int) + sint8 (to_byte (-4 * (((3 : Nat) : Int) + 1))))) = 0 :=
  ⟨_, rfl, rfl, by decide, by decide, by decide,
    (register_addressing env_mmap (program sample_add) 13 _ rfl 0xffffd000
      { eax := 0, ecx := 0, edx := 0, ebp := 0xffffd040, esp := 0xffffd000, eip := 0,
        zf := false, stack := fun _ => 0, out := [] } rfl (by decide) (by decide) 3
      (by decide)).2.1,
    (register_addressing env_mmap (program sample_add) 13 _ rfl 0xffffd000
      { eax := 0, ecx := 0, edx := 0, ebp := 0xffffd040, esp := 0xffffd000, eip := 0,
        zf := false, stack := fun _ => 0, out := [] } rfl (by decide) (by decide) 3
      (by decide)).2.2.2⟩

/-- C12. Frame wrapping: when `perform_conversion` succeeds, the bytes it has
written are `55 89 E5`, sixteen copies of `6A 00`, the body that
`convert_opcodes` produces (called with the destination 35 bytes into the
region), sixteen copies of `58`, and `C9 C3`. So the body starts at offset 35,
the total length is `53 + ` the body length, and the table entry at `fake_len`,
the body length, taken from the body start is the offset of the first byte of
the epilogue. -/
theorem frame_wrapping (env : Env) (fake : Nat → byte) (fake_len : Nat) (c : Cursor)
    (h : perform_conversion env fake fake_len = .ok c) :
    ∃ r, convert_opcodes { env with real_addr := env.real_addr + 35 } fake zero_mem
        fake_len = .ok r ∧
      region_bytes c =
        [0x55, 0x89, 0xE5] ++ (List.replicate 16 [0x6A, 0x00]).flatten
          ++ bytes_at r.real_ptr 0 r.len ++ (List.replicate 16 0x58 ++ [0xC9, 0xC3]) ∧
      bytes_at c.mem 35 r.len = bytes_at r.real_ptr 0 r.len ∧
      c.pos = 53 + r.len ∧
      r.addr_table[fake_len]? = some (r.len : Int) ∧
      c.mem (35 + r.len) = 0x58 := by
  obtain ⟨r, hr, hpos, hbytes⟩ := perform_conversion_ok h
  have hpl : prologue.length = 35 := by decide
  refine ⟨r, hr, hbytes, ?_, hpos, convert_sentinel hr, ?_⟩
  · have := bytes_at_eq c.mem 35 (bytes_at r.real_ptr 0 r.len) (by
      intro m hm
      rw [bytes_at_length] at hm
      rw [region_mem_of_bytes hbytes _ (by omega),
        List.getD_append _ _ _ _ (by simp only [List.length_append, bytes_at_length, hpl]; omega),
        List.getD_append_right _ _ _ _ (by omega), hpl]
      congr 1
      omega)
    rw [bytes_at_length] at this
    exact this
  · rw [region_mem_of_bytes hbytes _ (by omega),
      List.getD_append_right _ _ _ _
        (by simp only [List.length_append, bytes_at_length, hpl]; omega)]
    simp only [List.length_append, bytes_at_length, hpl, Nat.sub_self]
    rfl

/-- Witness for `frame_wrapping` on `sample_add`. -/
theorem frame_wrapping_witness :
    ∃ c, perform_conversion env_mmap (program sample_add) 13 = .ok c ∧
      ∃ r, convert_opcodes { env_mmap with real_addr := env_mmap.real_addr + 35 }
          (program sample_add) zero_mem 13 = .ok r ∧
        region_bytes c =
          [0x55, 0x89, 0xE5] ++ (List.replicate 16 [0x6A, 0x00]).flatten
            ++ bytes_at r.real_ptr 0 r.len ++ (List.replicate 16 0x58 ++ [0xC9, 0xC3]) ∧
        bytes_at c.mem 35 r.len = bytes_at r.real_ptr 0 r.len ∧
        c.pos = 53 + r.len ∧
        r.addr_table[13]? = some (r.len : Int) ∧
        c.mem (35 + r.len) = 0x58 :=
  ⟨_, rfl, frame_wrapping env_mmap (program sample_add) 13 _ rfl⟩

/-- C13. Documented templates: when `convert_opcodes` succeeds, at every
instruction start `i` the final buffer holds, from the native offset
`addr_table[i]` on, the bytes documented for the opcode: `90` for NOP; `68`
and the four operand bytes for PUSH; `5A` for POP; `FF 75 d` for LOAD and
`8F 45 d` for STORE; `E9` before a 4-byte field for JMP and STOP;
`59 85 C9 0F 84` resp. `59 85 C9 0F 85` before a 4-byte field for JZ and JNZ;
and the fixed sequences of ADD, SUB, MUL and DIV. -/
theorem documented_templates (env : Env) (fake_ptr real_ptr : Nat → byte) (fake_len : Nat)
    (r : Converted) (h : convert_opcodes env fake_ptr real_ptr fake_len = .ok r)
    (i : Nat) (hi : i ∈ instr_starts fake_ptr fake_len) :
    ∃ ji : Nat, r.addr_table[i]? = some (ji : Int) ∧
      ((fake_ptr i).val = NOP → bytes_at r.real_ptr ji 1 = [0x90]) ∧
      ((fake_ptr i).val = PUSH → bytes_at r.real_ptr ji 5 =
        [0x68, fake_ptr (i + 1), fake_ptr (i + 2), fake_ptr (i + 3), fake_ptr (i + 4)]) ∧
      ((fake_ptr i).val = POP → bytes_at r.real_ptr ji 1 = [0x5A]) ∧
      ((fake_ptr i).val = LOAD → bytes_at r.real_ptr ji 3 =
        [0xFF, 0x75, to_byte (-4 * (((fake_ptr (i + 1)).val : Int) + 1))]) ∧
      ((fake_ptr i).val = STORE → bytes_at r.real_ptr ji 3 =
        [0x8F, 0x45, to_byte (-4 * (((fake_ptr (i + 1)).val : Int) + 1))]) ∧
      ((fake_ptr i).val = JMP → bytes_at r.real_ptr ji 1 = [0xE9] ∧ ji + 5 ≤ r.len) ∧
      ((fake_ptr i).val = STOP → bytes_at r.real_ptr ji 1 = [0xE9] ∧ ji + 5 ≤ r.len) ∧
      ((fake_ptr i).val = JZ →
        bytes_at r.real_ptr ji 5 = [0x59, 0x85, 0xC9, 0x0F, 0x84] ∧ ji + 9 ≤ r.len) ∧
      ((fake_ptr i).val = JNZ →
        bytes_at r.real_ptr ji 5 = [0x59, 0x85, 0xC9, 0x0F, 0x85] ∧ ji + 9 ≤ r.len) ∧
      ((fake_ptr i).val = ADD → bytes_at r.real_ptr ji 5 = [0x5A, 0x59, 0x01, 0xD1, 0x51]) ∧
      ((fake_ptr i).val = SUB → bytes_at r.real_ptr ji 5 = [0x5A, 0x59, 0x29, 0xD1, 0x51]) ∧
      ((fake_ptr i).val = MUL →
        bytes_at r.real_ptr ji 6 = [0x5A, 0x59, 0x0F, 0xAF, 0xCA, 0x51]) ∧
      ((fake_ptr i).val = DIV →
        bytes_at r.real_ptr ji 7 = [0x59, 0x58, 0x31, 0xD2, 0xF7, 0xF9, 0x50]) := by
  obtain ⟨ji, h1, h2, -⟩ := convert_layout h i hi
  have hb := convert_fixed_bytes h hi h1
  refine ⟨ji, h1, ?_, ?_, ?_, ?_, ?_, ?_, ?_, ?_, ?_, ?_, ?_, ?_, ?_⟩ <;> intro hop <;>
    simp only [NOP, PUSH, POP, LOAD, STORE, JMP, JZ, JNZ, ADD, SUB, MUL, DIV, STOP] at hop <;>
    simp only [hop, fixed_len, nlen, emitted] at hb h2 <;>
    first
      | exact hb
      | exact ⟨hb, h2⟩

/-- Witness for `documented_templates`: the `JZ` of `sample_jz` at offset 12. -/
theorem documented_templates_witness :
    ∃ r, convert_opcodes env0 (program sample_jz) zero_mem 22 = .ok r ∧
      12 ∈ instr_starts (program sample_jz) 22 ∧
      ∃ ji : Nat, r.addr_table[12]? = some (ji : Int) ∧
        (((program sample_jz) 12).val = NOP → bytes_at r.real_ptr ji 1 = [0x90]) ∧
        (((program sample_jz) 12).val = PUSH → bytes_at r.real_ptr ji 5 =
          [0x68, (program sample_jz) (12 + 1), (program sample_jz) (12 + 2), (program sample_jz) (12 + 3), (program sample_jz) (12 + 4)]) ∧
        (((program sample_jz) 12).val = POP → bytes_at r.real_ptr ji 1 = [0x5A]) ∧
        (((program sample_jz) 12).val = LOAD → bytes_at r.real_ptr ji 3 =
          [0xFF, 0x75, to_byte (-4 * ((((program sample_jz) (12 + 1)).val : Int) + 1))]) ∧
        (((program sample_jz) 12).val = STORE → bytes_at r.real_ptr ji 3 =
          [0x8F, 0x45, to_byte (-4 * ((((program sample_jz) (12 + 1)).val : Int) + 1))]) ∧
        (((program sample_jz) 12).val = JMP → bytes_at r.real_ptr ji 1 = [0xE9] ∧ ji + 5 ≤ r.len) ∧
        (((program sample_jz) 12).val = STOP → bytes_at r.real_ptr ji 1 = [0xE9] ∧ ji + 5 ≤ r.len) ∧
        (((program sample_jz) 12).val = JZ →
          bytes_at r.real_ptr ji 5 = [0x59, 0x85, 0xC9, 0x0F, 0x84] ∧ ji + 9 ≤ r.len) ∧
        (((program sample_jz) 12).val = JNZ →
          bytes_at r.real_ptr ji 5 = [0x59, 0x85, 0xC9, 0x0F, 0x85] ∧ ji + 9 ≤ r.len) ∧
        (((program sample_jz) 12).val = ADD → bytes_at r.real_ptr ji 5 = [0x5A, 0x59, 0x01, 0xD1, 0x51]) ∧
        (((program sample_jz) 12).val = SUB → bytes_at r.real_ptr ji 5 = [0x5A, 0x59, 0x29, 0xD1, 0x51]) ∧
        (((program sample_jz) 12).val = MUL →
          bytes_at r.real_ptr ji 6 = [0x5A, 0x59, 0x0F, 0xAF, 0xCA, 0x51]) ∧
        (((program sample_jz) 12).val = DIV →
          bytes_at r.real_ptr ji 7 = [0x59, 0x58, 0x31, 0xD2, 0xF7, 0xF9, 0x50]) :=
  ⟨_, rfl, by decide,
    documented_templates env0 (program sample_jz) zero_mem 22 _ rfl 12 (by decide)⟩

/-- C14, the failing input. The code `convert_opcodes` emits for `DIV` is
`59 58 31 D2 F7 F9 50`. Run on a stack with `S1 = 3` on top and `S2 = -6`
beneath it, its five instructions leave `1431655763` on top of the stack (one
entry less than before), not the quotient `-6 / 3 = -2`: `xor %edx, %edx`
makes `idiv` divide the unsigned reading of `S2`. With `S2 = -1`, `S1 = 1` the
quotient does not fit and `idiv` faults. For `S2 = 7`, `S1 = -2` the result is
the claimed `-3`. -/
theorem div_clears_edx :
    ∃ r, convert_opcodes env0 (program [11]) zero_mem 1 = .ok r ∧
      bytes_at r.real_ptr 0 r.len = [0x59, 0x58, 0x31, 0xD2, 0xF7, 0xF9, 0x50] ∧
      (x86_steps env0 (code_of [0x59, 0x58, 0x31, 0xD2, 0xF7, 0xF9, 0x50]) 0 5
          (stack_entry (-6) 3)).map (fun c => (c.eip, sint32 c.top, c.esp))
        = some (7, 1431655763, 0xffffcf04) ∧
      Int.tdiv (-6) 3 = -2 ∧
      (x86_steps env0 (code_of [0x59, 0x58, 0x31, 0xD2, 0xF7, 0xF9, 0x50]) 0 5
          (stack_entry (-1) 1)).map (fun c => (c.eip, sint32 c.top, c.esp)) = none ∧
      (x86_steps env0 (code_of [0x59, 0x58, 0x31, 0xD2, 0xF7, 0xF9, 0x50]) 0 5
          (stack_entry 7 (-2))).map (fun c => (c.eip, sint32 c.top, c.esp))
        = some (7, -3, 0xffffcf04) :=
  ⟨_, rfl, by decide, by decide, by decide, by decide, by decide⟩

/-- C15. Fixed length table: the pairs (bytecode length, native length) are
NOP (1,1), PUSH (5,5), POP (1,1), LOAD (2,3), STORE (2,3), JMP (3,5), JZ (3,9),
JNZ (3,9), ADD (1,5), SUB (1,5), MUL (1,6), DIV (1,7), PRINT (1,12), STOP (1,5);
and when `convert_opcodes` succeeds, for every instruction start `i` with
opcode `op`: `i + blen op` is the next instruction start (no start lies in
between, and it is a start when inside the program); whenever
`i + blen op ≤ fake_len`, `addr_table[i + blen op] = addr_table[i] + nlen op`;
and every later instruction start has a larger table entry. -/
theorem fixed_length_table (env : Env) (fake_ptr real_ptr : Nat → byte) (fake_len : Nat)
    (r : Converted) (h : convert_opcodes env fake_ptr real_ptr fake_len = .ok r)
    (i : Nat) (hi : i ∈ instr_starts fake_ptr fake_len) :
    [(blen NOP, nlen NOP), (blen PUSH, nlen PUSH), (blen POP, nlen POP),
      (blen LOAD, nlen LOAD), (blen STORE, nlen STORE), (blen JMP, nlen JMP),
      (blen JZ, nlen JZ), (blen JNZ, nlen JNZ), (blen ADD, nlen ADD), (blen SUB, nlen SUB),
      (blen MUL, nlen MUL), (blen DIV, nlen DIV), (blen PRINT, nlen PRINT),
      (blen STOP, nlen STOP)] =
      [(some 1, 1), (some 5, 5), (some 1, 1), (some 2, 3), (some 2, 3), (some 3, 5),
        (some 3, 9), (some 3, 9), (some 1, 5), (some 1, 5), (some 1, 6), (some 1, 7),
        (some 1, 12), (some 1, 5)] ∧
    ∃ (b ji : Nat), blen (fake_ptr i).val = some b ∧
      r.addr_table[i]? = some (ji : Int) ∧
      (i + b < fake_len → i + b ∈ instr_starts fake_ptr fake_len) ∧
      (∀ c ∈ instr_starts fake_ptr fake_len, i < c → i + b ≤ c) ∧
      (i + b ≤ fake_len →
        r.addr_table[i + b]? = some ((ji + nlen (fake_ptr i).val : Nat) : Int)) ∧
      (∀ c ∈ instr_starts fake_ptr fake_len, i < c →
        ∃ jc : Nat, r.addr_table[c]? = some (jc : Int) ∧ ji < jc) := by
  refine ⟨by decide, ?_⟩
  obtain ⟨t, hrun, hlen, hreal, htab, hjl⟩ := convert_ok h
  obtain ⟨ji, h1, -, -, h4⟩ := convert_layout h i hi
  obtain ⟨ji', h5, -, -, hop, -, h6⟩ := run_table_starts hrun (init_table_length fake_len) i hi
  have hib := (starts_at_bounds fake_ptr fake_len _ _ i hi).2
  have e : ji' = ji := by
    have := h5.symm.trans ((final_table_below hib).symm.trans (htab ▸ h1))
    exact_mod_cast Option.some.inj this
  subst e
  cases hb : blen (fake_ptr i).val with
  | none =>
    have := blen_none.mp hb
    omega
  | some b =>
    obtain ⟨h7, h8⟩ := h4 b hb
    refine ⟨b, ji', rfl, h1, h7, ?_, h8, ?_⟩
    · intro c hc hic
      exact starts_gap fake_ptr fake_len _ _ i c b hi hc hb hic
    · intro c hc hic
      obtain ⟨jc, h9, h10⟩ := h6 c hc hic
      have hcb := (starts_at_bounds fake_ptr fake_len _ _ c hc).2
      exact ⟨jc, by rw [htab, final_table_below hcb, h9], h10⟩

/-- Witness for `fixed_length_table`: the second `PUSH` of `sample_add`, at
offset 5, followed by `ADD` at offset 10. -/
theorem fixed_length_table_witness :
    ∃ r, convert_opcodes env0 (program sample_add) zero_mem 13 = .ok r ∧
      5 ∈ instr_starts (program sample_add) 13 ∧
      ∃ (b ji : Nat), blen (program sample_add 5).val = some b ∧
        r.addr_table[5]? = some (ji : Int) ∧
        (5 + b < 13 → 5 + b ∈ instr_starts (program sample_add) 13) ∧
        (∀ c ∈ instr_starts (program sample_add) 13, 5 < c → 5 + b ≤ c) ∧
        (5 + b ≤ 13 →
          r.addr_table[5 + b]? = some ((ji + nlen (program sample_add 5).val : Nat) : Int)) ∧
        (∀ c ∈ instr_starts (program sample_add) 13, 5 < c →
          ∃ jc : Nat, r.addr_table[c]? = some (jc : Int) ∧ ji < jc) :=
  ⟨_, rfl, by decide,
    (fixed_length_table env0 (program sample_add) zero_mem 13 _ rfl 5 (by decide)).2⟩

/-- C16. PRINT encoding: when `convert_opcodes` succeeds with the body written
at address `env.real_addr`, at every `PRINT` at an instruction start `i` with
native offset `ji = addr_table[i]` the twelve bytes from `ji` on are `68`, four
bytes whose little-endian value is the address `format_str` (modulo `2^32`),
`E8`, four bytes whose little-endian value is
`printf_addr - (real_addr + ji + 10)` modulo `2^32` (the displacement from the
byte after the 5-byte call at `ji + 5`), and `5A 5A`. -/
theorem print_encoding (env : Env) (fake_ptr real_ptr : Nat → byte) (fake_len : Nat)
    (r : Converted) (h : convert_opcodes env fake_ptr real_ptr fake_len = .ok r)
    (i : Nat) (hi : i ∈ instr_starts fake_ptr fake_len) (hop : (fake_ptr i).val = PRINT) :
    ∃ ji : Nat, r.addr_table[i]? = some (ji : Int) ∧ ji + 12 ≤ r.len ∧
      r.real_ptr ji = 0x68 ∧
      ((r.real_ptr (ji + 1)).val : Int) + 256 * (r.real_ptr (ji + 2)).val
        + 65536 * (r.real_ptr (ji + 3)).val + 16777216 * (r.real_ptr (ji + 4)).val
        = (env.format_str : Int) % 4294967296 ∧
      r.real_ptr (ji + 5) = 0xE8 ∧
      ((r.real_ptr (ji + 6)).val : Int) + 256 * (r.real_ptr (ji + 7)).val
        + 65536 * (r.real_ptr (ji + 8)).val + 16777216 * (r.real_ptr (ji + 9)).val
        = ((env.printf_addr : Int) - ((env.real_addr : Int) + ji + 10)) % 4294967296 ∧
      r.real_ptr (ji + 10) = 0x5A ∧ r.real_ptr (ji + 11) = 0x5A := by
  obtain ⟨ji, h1, h2, h3, -⟩ := convert_layout h i hi
  simp only [PRINT] at hop
  simp only [hop, fixed_len, nlen, emitted] at h2 h3
  have b0 := h3 0 (by omega)
  have b1 := h3 1 (by omega)
  have b2 := h3 2 (by omega)
  have b3 := h3 3 (by omega)
  have b4 := h3 4 (by omega)
  have b5 := h3 5 (by omega)
  have b6 := h3 6 (by omega)
  have b7 := h3 7 (by omega)
  have b8 := h3 8 (by omega)
  have b9 := h3 9 (by omega)
  have b10 := h3 10 (by omega)
  have b11 := h3 11 (by omega)
  have v1 := int_bytes_value (env.format_str : Int)
  have v2 := int_bytes_value ((env.printf_addr : Int) - ((env.real_addr : Int) + ji + 10))
  simp only [int_bytes, List.cons_append, List.nil_append, List.getD_cons_zero,
    List.getD_cons_succ, Nat.add_zero] at b0 b1 b2 b3 b4 b5 b6 b7 b8 b9 b10 b11 v1 v2
  refine ⟨ji, h1, h2, b0, ?_, b5, ?_, b10, b11⟩
  · rw [b1, b2, b3, b4]
    exact v1
  · rw [b6, b7, b8, b9]
    exact v2

/-- Witness for `print_encoding`: the `PRINT` of `sample_add` at offset 11. -/
theorem print_encoding_witness :
    ∃ r, convert_opcodes env0 (program sample_add) zero_mem 13 = .ok r ∧
      11 ∈ instr_starts (program sample_add) 13 ∧ (program sample_add 11).val = PRINT ∧
      ∃ ji : Nat, r.addr_table[11]? = some (ji : Int) ∧ ji + 12 ≤ r.len ∧
        r.real_ptr ji = 0x68 ∧
        ((r.real_ptr (ji + 1)).val : Int) + 256 * (r.real_ptr (ji + 2)).val
          + 65536 * (r.real_ptr (ji + 3)).val + 16777216 * (r.real_ptr (ji + 4)).val
          = (env0.format_str : Int) % 4294967296 ∧
        r.real_ptr (ji + 5) = 0xE8 ∧
        ((r.real_ptr (ji + 6)).val : Int) + 256 * (r.real_ptr (ji + 7)).val
          + 65536 * (r.real_ptr (ji + 8)).val + 16777216 * (r.real_ptr (ji + 9)).val
          = ((env0.printf_addr : Int) - ((env0.real_addr : Int) + ji + 10)) % 4294967296 ∧
        r.real_ptr (ji + 10) = 0x5A ∧ r.real_ptr (ji + 11) = 0x5A :=
  ⟨_, rfl, by decide, by decide,
    print_encoding env0 (program sample_add) zero_mem 13 _ rfl 11 (by decide) (by decide)⟩

/-- C17. The second loop is an in-place patch. When `convert_opcodes`
succeeds, with `s` the state after the first loop: the final buffer is the
buffer of the first loop after the stores of the second loop, which are one
4-byte `memcpy` per pending jump at its patch site; the patch sites are
pairwise disjoint and lie inside `[0, len)`; no byte is written by more than
one of these stores and every byte of a patch site by exactly one; after the
loop every patch site holds the four bytes of the displacement of its own
entry; every byte outside the patch sites has the value it had after the first
loop; and resolving the entries in any other order gives the same buffer. -/
theorem pass_two_in_place (env : Env) (fake_ptr real_ptr : Nat → byte) (fake_len : Nat)
    (r : Converted) (h : convert_opcodes env fake_ptr real_ptr fake_len = .ok r) :
    ∃ s, pass_one env fake_ptr fake_len fake_len (initial_state real_ptr fake_len) = .ok s ∧
      r.jump_locations = s.jump_locations ∧
      r.real_ptr = fill_jumps env.heap r.addr_table r.jump_locations s.real_ptr ∧
      r.real_ptr =
        apply_stores (pass_two_stores env.heap r.addr_table r.jump_locations) s.real_ptr ∧
      (pass_two_stores env.heap r.addr_table r.jump_locations).map
          (fun st => (st.1, st.2.length)) =
        r.jump_locations.map (fun n => (n.real_pos, 4)) ∧
      r.jump_locations.Pairwise
        (fun a b => a.real_pos + 4 ≤ b.real_pos ∨ b.real_pos + 4 ≤ a.real_pos) ∧
      (∀ n ∈ r.jump_locations, n.real_pos + 4 ≤ r.len) ∧
      (∀ k, stores_covering
        (pass_two_stores env.heap r.addr_table r.jump_locations) k ≤ 1) ∧
      (∀ n ∈ r.jump_locations, ∀ k, n.real_pos ≤ k → k < n.real_pos + 4 →
        stores_covering (pass_two_stores env.heap r.addr_table r.jump_locations) k = 1) ∧
      (∀ n ∈ r.jump_locations, ∀ k, k < 4 →
        r.real_ptr (n.real_pos + k) =
          (int_bytes (table_read env.heap r.addr_table n.fake_addr
            - ((n.real_pos : Int) + 4))).getD k 0) ∧
      (∀ k, (∀ n ∈ r.jump_locations, k < n.real_pos ∨ n.real_pos + 4 ≤ k) →
        r.real_ptr k = s.real_ptr k) ∧
      (∀ l', l'.Perm r.jump_locations →
        fill_jumps env.heap r.addr_table l' s.real_ptr = r.real_ptr) := by
  obtain ⟨t, hrun, hlen, hreal, htab, hjl⟩ := convert_ok h
  obtain ⟨N, hN, hb, hpw⟩ := run_jumps hrun
  simp only [List.append_nil] at hN
  have hreal' : r.real_ptr = fill_jumps env.heap r.addr_table r.jump_locations t.real_ptr := by
    rw [hreal, htab, hjl]
  have hpw' : r.jump_locations.Pairwise
      (fun a b => a.real_pos + 4 ≤ b.real_pos ∨ b.real_pos + 4 ≤ a.real_pos) := by
    rw [hjl, hN]
    exact hpw.imp (fun h => Or.inr h)
  obtain ⟨w1, w2⟩ := writes_to_disjoint r.jump_locations hpw'
  refine ⟨t, run_pass_one hrun fake_len (Nat.sub_le _ _), hjl, hreal', ?_,
    pass_two_stores_shape _ _ _, hpw', ?_, ?_, ?_, ?_, ?_, ?_⟩
  · rw [hreal']
    exact fill_jumps_eq_stores env.heap r.addr_table r.jump_locations t.real_ptr
  · intro n hn
    rw [hjl, hN] at hn
    rw [hlen]
    exact (hb n hn).2
  · intro k
    rw [stores_covering_eq]
    exact w1 k
  · intro n hn k h1 h2
    rw [stores_covering_eq]
    exact w2 n hn k h1 h2
  · intro n hn k hk
    rw [hreal']
    exact fill_jumps_site_any env.heap r.addr_table r.jump_locations t.real_ptr hpw' n hn k hk
  · intro k hk
    rw [hreal']
    exact fill_jumps_frame env.heap r.addr_table r.jump_locations t.real_ptr k hk
  · intro l' hperm
    rw [hreal']
    exact fill_jumps_perm env.heap r.addr_table r.jump_locations l' t.real_ptr hpw' hperm

/-- Witness for `pass_two_in_place` on `sample_jz` (two pending jumps). -/
theorem pass_two_in_place_witness :
    ∃ r, convert_opcodes env0 (program sample_jz) zero_mem 22 = .ok r ∧
      ∃ s, pass_one env0 (program sample_jz) 22 22 (initial_state zero_mem 22) = .ok s ∧
        r.jump_locations = s.jump_locations ∧
        r.real_ptr = fill_jumps env0.heap r.addr_table r.jump_locations s.real_ptr ∧
        r.real_ptr =
          apply_stores (pass_two_stores env0.heap r.addr_table r.jump_locations) s.real_ptr ∧
        (pass_two_stores env0.heap r.addr_table r.jump_locations).map
            (fun st => (st.1, st.2.length)) =
          r.jump_locations.map (fun n => (n.real_pos, 4)) ∧
        r.jump_locations.Pairwise
          (fun a b => a.real_pos + 4 ≤ b.real_pos ∨ b.real_pos + 4 ≤ a.real_pos) ∧
        (∀ n ∈ r.jump_locations, n.real_pos + 4 ≤ r.len) ∧
        (∀ k, stores_covering
          (pass_two_stores env0.heap r.addr_table r.jump_locations) k ≤ 1) ∧
        (∀ n ∈ r.jump_locations, ∀ k, n.real_pos ≤ k → k < n.real_pos + 4 →
          stores_covering (pass_two_stores env0.heap r.addr_table r.jump_locations) k = 1) ∧
        (∀ n ∈ r.jump_locations, ∀ k, k < 4 →
          r.real_ptr (n.real_pos + k) =
            (int_bytes (table_read env0.heap r.addr_table n.fake_addr
              - ((n.real_pos : Int) + 4))).getD k 0) ∧
        (∀ k, (∀ n ∈ r.jump_locations, k < n.real_pos ∨ n.real_pos + 4 ≤ k) →
          r.real_ptr k = s.real_ptr k) ∧
        (∀ l', l'.Perm r.jump_locations →
          fill_jumps env0.heap r.addr_table l' s.real_ptr = r.real_ptr) :=
  ⟨_, rfl, pass_two_in_place env0 (program sample_jz) zero_mem 22 _ rfl⟩

/-- C18, the failing input. For the program of 65536 `PRINT` bytes (the
largest the loader accepts) `perform_conversion` succeeds and writes
`35 + 786432 + 18 = 786485` bytes, more than the `MAX_INSTS * MAX_SCALE =
786432` bytes of the region it has mapped. -/
theorem region_overflow :
    ∃ c, perform_conversion env_mmap (fun _ => 12) 65536 = .ok c ∧
      c.pos = 786485 ∧ MAX_INSTS * MAX_SCALE = 786432 ∧ 65536 ≤ MAX_INSTS := by
  obtain ⟨t, ht⟩ := run_exists { env_mmap with real_addr := env_mmap.real_addr + 35 }
    (fun _ => 12) 65536 65536
    { i := 0, j := 0, real_ptr := zero_mem,
      addr_table := List.replicate (65536 + 1) 0, jump_locations := [] }
    (Nat.sub_le _ _) (fun a _ => show ((12 : byte).val ≤ 13) by decide)
  have hlen := run_print_len ht (Nat.zero_le _)
  obtain ⟨c, hc, hpos⟩ := perform_of_convert (convert_of_run ht)
  refine ⟨c, hc, ?_, by decide, by decide⟩
  rw [hpos]
  simp only at hlen ⊢
  omega

/-- C19, counterexample. For the 1-byte program `PUSH` the first loop reads
`fake_ptr` at the indices 0, 1, 2, 3, 4, four of them outside the program, and
leaves with `i = 5`, not 1. The bytes behind the program reach the output:
with 7 instead of 0 at index 1 the byte at native offset 1 is 7 instead of 0. -/
theorem reads_past_end :
    pass_one_reads env0 (program [1]) 1 1 (initial_state zero_mem 1) = [0, 1, 2, 3, 4] ∧
    (∃ s, pass_one env0 (program [1]) 1 1 (initial_state zero_mem 1) = .ok s ∧ s.i = 5) ∧
    (∃ r, convert_opcodes env0 (program [1]) zero_mem 1 = .ok r ∧ r.real_ptr 1 = 0) ∧
    (∃ r, convert_opcodes env0 (program [1, 7]) zero_mem 1 = .ok r ∧ r.real_ptr 1 = 7) :=
  ⟨by decide, ⟨_, rfl, by decide⟩, ⟨_, rfl, by decide⟩, ⟨_, rfl, by decide⟩⟩

/-- C19, as amended. For a program in which every instruction lies inside the
program (each instruction start `a` with a known opcode has
`a + blen ≤ fake_len`), the first loop reads `fake_ptr` only at indices below
`fake_len`, and when it completes without the invalid-instruction error it
leaves with `i = fake_len`. -/
theorem reads_in_bounds (env : Env) (fake_ptr real_ptr : Nat → byte) (fake_len : Nat)
    (hall : ∀ a ∈ instr_starts fake_ptr fake_len, ∀ b, blen (fake_ptr a).val = some b →
      a + b ≤ fake_len) :
    (∀ k ∈ pass_one_reads env fake_ptr fake_len fake_len (initial_state real_ptr fake_len),
      k < fake_len) ∧
    (∀ s, pass_one env fake_ptr fake_len fake_len (initial_state real_ptr fake_len) = .ok s →
      s.i = fake_len) := by
  constructor
  · exact pass_one_reads_bounds fake_len (initial_state real_ptr fake_len) hall
  · intro s hs
    exact run_cursor_exact (pass_one_run fake_len _ s (Nat.sub_le _ _) hs) (Nat.zero_le _) hall

/-- Witness for `reads_in_bounds` on `sample_jz`. -/
theorem reads_in_bounds_witness :
    (∀ a ∈ instr_starts (program sample_jz) 22, ∀ b,
      blen (program sample_jz a).val = some b → a + b ≤ 22) ∧
    (∀ k ∈ pass_one_reads env0 (program sample_jz) 22 22 (initial_state zero_mem 22),
      k < 22) ∧
    (∀ s, pass_one env0 (program sample_jz) 22 22 (initial_state zero_mem 22) = .ok s →
      s.i = 22) :=
  ⟨by decide, reads_in_bounds env0 (program sample_jz) zero_mem 22 (by decide)⟩

/-- C20. Register operands are never validated: for every operand byte `r`
(the byte behind the opcode may be any of 0..255) an iteration on `LOAD r` or
`STORE r` does not fail and stores `FF 75 d` resp. `8F 45 d`, where `d` is
`-4 * (r + 1)` modulo 256. This byte depends only on `r mod 64`; for `r` in
64..79 it is the byte of register `r - 64`; for `r` in 32..63 its signed
reading is not negative. -/
theorem register_operand_unvalidated (env : Env) (fake_ptr : Nat → byte) (fake_len : Nat)
    (s : State) (hop : (fake_ptr s.i).val = LOAD ∨ (fake_ptr s.i).val = STORE) :
    ∃ s', step env fake_ptr fake_len s = .ok s' ∧
      bytes_at s'.real_ptr s.j 3 =
        [if (fake_ptr s.i).val = LOAD then 0xFF else 0x8F,
         if (fake_ptr s.i).val = LOAD then 0x75 else 0x45,
         to_byte (-4 * (((fake_ptr (s.i + 1)).val : Int) + 1))] ∧
      ((to_byte (-4 * (((fake_ptr (s.i + 1)).val : Int) + 1))).val : Int)
        = (-4 * (((fake_ptr (s.i + 1)).val : Int) + 1)) % 256 ∧
      to_byte (-4 * (((fake_ptr (s.i + 1)).val : Int) + 1))
        = to_byte (-4 * ((((fake_ptr (s.i + 1)).val % 64 : Nat) : Int) + 1)) ∧
      (64 ≤ (fake_ptr (s.i + 1)).val → (fake_ptr (s.i + 1)).val ≤ 79 →
        to_byte (-4 * (((fake_ptr (s.i + 1)).val : Int) + 1))
          = to_byte (-4 * ((((fake_ptr (s.i + 1)).val - 64 : Nat) : Int) + 1))) ∧
      (32 ≤ (fake_ptr (s.i + 1)).val → (fake_ptr (s.i + 1)).val ≤ 63 →
        0 ≤ sint8 (to_byte (-4 * (((fake_ptr (s.i + 1)).val : Int) + 1)))) := by
  obtain ⟨s', hs, -, -, hbytes⟩ := step_load_store env fake_ptr fake_len hop
  have hr := (fake_ptr (s.i + 1)).isLt
  refine ⟨s', hs, hbytes, ?_, ?_, ?_, ?_⟩
  · simp only [to_byte]
    omega
  · apply Fin.ext
    simp only [to_byte]
    omega
  · intro h1 h2
    apply Fin.ext
    simp only [to_byte]
    omega
  · intro h1 h2
    have hv : (to_byte (-4 * (((fake_ptr (s.i + 1)).val : Int) + 1))).val
        = ((-4 * (((fake_ptr (s.i + 1)).val : Int) + 1)) % 256).toNat := rfl
    unfold sint8
    rw [hv]
    split <;> omega

/-- Witness for `register_operand_unvalidated`: `LOAD 70` as the first
instruction of a program. -/
theorem register_operand_unvalidated_witness :
    ((program [3, 70] 0).val = LOAD ∨ (program [3, 70] 0).val = STORE) ∧
    ∃ s', step env0 (program [3, 70]) 2
        { i := 0, j := 0, real_ptr := zero_mem, addr_table := [0, 0, 0],
          jump_locations := [] } = .ok s' ∧
      bytes_at s'.real_ptr 0 3 =
        [if (program [3, 70] 0).val = LOAD then 0xFF else 0x8F,
         if (program [3, 70] 0).val = LOAD then 0x75 else 0x45,
         to_byte (-4 * (((program [3, 70] (0 + 1)).val : Int) + 1))] ∧
      ((to_byte (-4 * (((program [3, 70] (0 + 1)).val : Int) + 1))).val : Int)
        = (-4 * (((program [3, 70] (0 + 1)).val : Int) + 1)) % 256 ∧
      to_byte (-4 * (((program [3, 70] (0 + 1)).val : Int) + 1))
        = to_byte (-4 * ((((program [3, 70] (0 + 1)).val % 64 : Nat) : Int) + 1)) ∧
      (64 ≤ (program [3, 70] (0 + 1)).val → (program [3, 70] (0 + 1)).val ≤ 79 →
        to_byte (-4 * (((program [3, 70] (0 + 1)).val : Int) + 1))
          = to_byte (-4 * ((((program [3, 70] (0 + 1)).val - 64 : Nat) : Int) + 1))) ∧
      (32 ≤ (program [3, 70] (0 + 1)).val → (program [3, 70] (0 + 1)).val ≤ 63 →
        0 ≤ sint8 (to_byte (-4 * (((program [3, 70] (0 + 1)).val : Int) + 1)))) :=
  ⟨by decide,
    register_operand_unvalidated env0 (program [3, 70]) 2
      { i := 0, j := 0, real_ptr := zero_mem, addr_table := [0, 0, 0],
        jump_locations := [] } (by decide)⟩

end Navm
